import Mathlib

/-!
# Verification of the ccusage-rs usage-aggregation engine

Shallow embedding of the core of `src/main.rs`: pricing resolution
(`PricingIndex`), event normalization (`to_usage_event`), the aggregation
engine (`RowAccumulator`, `calculate_totals`, `aggregate_models_from_rows`),
calendar bucketing (`week_start_for_date`, the block-start computation of
`build_blocks_report`), and the live-tail reader (`read_new_events`).

Modelling conventions:
* Rust `u64` token counters become `Nat` (the program only adds them;
  overflow is out of scope for these claims).
* Rust `f64` cost values become `Rat`: every cost operation the claims
  mention is pure addition/multiplication, which `Rat` models exactly.
* Rust `String` stays `String`; byte-level operations (`len`, `starts_with`,
  `contains`) are modelled on the character list `String.toList`, which
  agrees with the byte view on the ASCII data involved.
* `HashMap` iteration order is arbitrary in Rust, so functions consuming a
  `HashMap` take an explicit association `List` representing one iteration
  order; order-(in)dependence is then part of what is proved or refuted.
* `BTreeMap`/`BTreeSet` become association lists / lists kept sorted by key.
* External library calls (chrono RFC-3339 parsing, serde JSON parsing) are
  taken as explicit functional parameters: the claims under verification
  quantify over their behaviour rather than re-implement them.
* chrono `DateTime<Tz>` wall-clock editing (`with_hour` …) is modelled by
  `LocalDT` together with a `TzModel` that counts how many instants a local
  wall-clock reading resolves to (0 in a DST gap, 2 in a DST fold); per the
  chrono documentation the `with_*` family returns `None` unless the result
  resolves to exactly one instant.
-/

namespace Ccusage

/-! ## Strings: byte-level helpers used by the Rust source -/

/-- Model of Rust `str::starts_with` (`PricingIndex::find`). -/
def rsStartsWith (s pat : String) : Bool :=
  pat.toList.isPrefixOf s.toList

/-- Model of Rust `str::len` as used by the length sort in
`PricingIndex::from_map` (character count; agrees with byte count on the
ASCII model keys). -/
def rsLen (s : String) : Nat :=
  s.toList.length

/-- One step of ASCII lowercasing, modelling Rust `char::to_lowercase` on
the ASCII model identifiers. -/
def lowerChar (c : Char) : Char :=
  if 'A' ≤ c ∧ c ≤ 'Z' then Char.ofNat (c.toNat + 32) else c

/-- Model of Rust `str::to_lowercase` (ASCII fragment). -/
def rsToLowercase (s : String) : String :=
  String.mk (s.toList.map lowerChar)

/-- Model of Rust `str::strip_prefix`: drop `pat` from the front when it is
there, otherwise return the string unchanged. -/
def stripPre (pat s : String) : String :=
  if pat.toList.isPrefixOf s.toList then String.mk (s.toList.drop pat.toList.length) else s

/-- Does the auxiliary list occur contiguously in the main list?  Model of
Rust `str::contains` used by the `load_events` fast pre-filter. -/
def listHasSub (pat : List Char) : List Char → Bool
  | [] => pat.isEmpty
  | c :: rest => pat.isPrefixOf (c :: rest) || listHasSub pat rest

/-- Model of Rust `str::contains` with a string pattern. -/
def rsContains (s pat : String) : Bool :=
  listHasSub pat.toList s.toList

/-! ## Calendar: weeks (`week_start_for_date`)

`chrono::NaiveDate` is encoded as `Int`, the number of days relative to a
fixed reference Sunday, so that `Weekday::num_days_from_sunday` becomes
`date % 7` (Euclidean remainder, always in `[0, 7)`). -/

/-- The `WeekStart` configuration enum of the source. -/
inductive WeekStart where
  | sunday
  | monday
deriving DecidableEq, Repr

/-- Embedding of `week_start_for_date` (src/main.rs:1700-1708):
`date - ((7 + weekdayFromSunday - startOffset) % 7)` days. -/
def week_start_for_date (date : Int) (start : WeekStart) : Int :=
  let weekday : Int := date % 7
  let start_day : Int := match start with
    | .sunday => 0
    | .monday => 1
  date - (7 + weekday - start_day) % 7

/-- C4: for every date `d` and both week-start settings, all seven dates
`weekStart d, weekStart d + 1, …, weekStart d + 6` have the same week
start, namely `weekStart d` itself. -/
theorem week_start_idempotent_on_span (d : Int) (s : WeekStart) (k : Int)
    (hk0 : 0 ≤ k) (hk : k < 7) :
    week_start_for_date (week_start_for_date d s + k) s = week_start_for_date d s := by
  cases s <;> simp only [week_start_for_date] <;> omega

theorem week_start_idempotent_on_span_witness :
    (0 : Int) ≤ 3 ∧ (3 : Int) < 7 ∧
      week_start_for_date (week_start_for_date 5 WeekStart.monday + 3) WeekStart.monday =
        week_start_for_date 5 WeekStart.monday :=
  ⟨by decide, by decide,
    week_start_idempotent_on_span 5 WeekStart.monday 3 (by decide) (by decide)⟩

/-! ## Calendar: wall-clock datetimes and billing blocks

`build_blocks_report` (src/main.rs:1580-1599) computes, for each event, a
block start by editing the event's local wall-clock time:
`local_dt.with_hour((hour / N) * N).and_then(with_minute 0)
 .and_then(with_second 0).and_then(with_nanosecond 0).expect("valid datetime")`.

A `DateTime<Tz>` is modelled by its wall-clock reading `LocalDT` plus the
timezone's resolution function: chrono's `with_*` methods for a
timezone-aware datetime return `None` when the edited local time is
invalid, or does not resolve to exactly one instant in the timezone
(nonexistent in a DST gap, or ambiguous in a DST fold). -/

/-- A local wall-clock reading: date (day index) and time of day. -/
structure LocalDT where
  date : Int
  hour : Nat
  minute : Nat
  second : Nat
  nano : Nat
deriving DecidableEq, Repr

/-- A timezone, abstracted to how many instants each local wall-clock
reading resolves to: `1` normally, `0` inside a DST gap, `2` inside a DST
fold.  (Example: in America/Sao_Paulo on 2018-11-04 the readings
00:00–00:59 resolved to no instant at all.) -/
structure TzModel where
  resolveCount : LocalDT → Nat

/-- chrono `Timelike::with_hour` on `DateTime<Tz>`. -/
def withHourTz (tz : TzModel) (dt : LocalDT) (h : Nat) : Option LocalDT :=
  if h < 24 then
    let d := { dt with hour := h }
    if tz.resolveCount d = 1 then some d else none
  else none

/-- chrono `Timelike::with_minute` on `DateTime<Tz>`. -/
def withMinuteTz (tz : TzModel) (dt : LocalDT) (m : Nat) : Option LocalDT :=
  if m < 60 then
    let d := { dt with minute := m }
    if tz.resolveCount d = 1 then some d else none
  else none

/-- chrono `Timelike::with_second` on `DateTime<Tz>`. -/
def withSecondTz (tz : TzModel) (dt : LocalDT) (s : Nat) : Option LocalDT :=
  if s < 60 then
    let d := { dt with second := s }
    if tz.resolveCount d = 1 then some d else none
  else none

/-- chrono `Timelike::with_nanosecond` on `DateTime<Tz>`. -/
def withNanoTz (tz : TzModel) (dt : LocalDT) (n : Nat) : Option LocalDT :=
  if n < 2000000000 then
    let d := { dt with nano := n }
    if tz.resolveCount d = 1 then some d else none
  else none

/-- The block-start computation of `build_blocks_report`
(src/main.rs:1580-1587), before the final `expect("valid datetime")`:
`block_hours = session_length_hours.max(1)`,
`block_start_hour = (hour / block_hours) * block_hours`, then the
`with_hour … with_nanosecond` chain. -/
def block_start_of (tz : TzModel) (session_length_hours : Nat) (dt : LocalDT) :
    Option LocalDT :=
  let block_hours := max session_length_hours 1
  let block_start_hour := (dt.hour / block_hours) * block_hours
  (withHourTz tz dt block_start_hour).bind fun d =>
    (withMinuteTz tz d 0).bind fun d =>
      (withSecondTz tz d 0).bind fun d =>
        withNanoTz tz d 0

/-- Advancing a wall-clock reading by whole hours, carrying into the date:
model of `start + ChronoDuration::hours(n)` for the fixed-offset reading of
the block row. -/
def addHoursWall (dt : LocalDT) (n : Nat) : LocalDT :=
  { dt with date := dt.date + ((dt.hour + n) / 24 : Nat), hour := (dt.hour + n) % 24 }

/-- The block-end computation of `build_blocks_report`
(src/main.rs:1598-1599): `end = start + ChronoDuration::hours(hours)` with
`hours = session_length_hours.max(1)`. -/
def block_end_of (start : LocalDT) (session_length_hours : Nat) : LocalDT :=
  addHoursWall start (max session_length_hours 1)

/-- A timezone with a DST gap swallowing hour 0 of every date (as on the
South American DST-start days where midnight did not exist). -/
def tzMidnightGap : TzModel :=
  ⟨fun d => if d.hour = 0 then 0 else 1⟩

/-- A fixed-offset timezone: every local reading resolves uniquely. -/
def tzFixed : TzModel :=
  ⟨fun _ => 1⟩

/-- C5: whenever the block-start chain of `build_blocks_report` succeeds,
the block start lies on the event's local date, its hour is the greatest
multiple of `N` that is at most the event's local hour, its minute, second
and nanosecond are zero, and the row's block end is the block start plus
`N` hours. -/
theorem block_start_spec (tz : TzModel) (n : Nat) (dt bs : LocalDT)
    (hn : 1 ≤ n) (hh : dt.hour < 24)
    (hbs : block_start_of tz n dt = some bs) :
    bs.date = dt.date ∧
      bs.hour = dt.hour / n * n ∧
      bs.hour % n = 0 ∧
      bs.hour ≤ dt.hour ∧
      (∀ m : Nat, m % n = 0 → m ≤ dt.hour → m ≤ bs.hour) ∧
      bs.minute = 0 ∧ bs.second = 0 ∧ bs.nano = 0 ∧
      block_end_of bs n = addHoursWall bs n := by
  have hmax : max n 1 = n := Nat.max_eq_left hn
  have hbh : dt.hour / n * n ≤ dt.hour := Nat.div_mul_le_self _ _
  simp only [block_start_of, hmax, withHourTz, withMinuteTz, withSecondTz, withNanoTz] at hbs
  rw [if_pos (lt_of_le_of_lt hbh hh)] at hbs
  by_cases h1 : tz.resolveCount { dt with hour := dt.hour / n * n } = 1
  · rw [if_pos h1] at hbs
    simp only [Option.bind_some, Option.some_bind] at hbs
    rw [if_pos (by norm_num)] at hbs
    by_cases h2 : tz.resolveCount { dt with hour := dt.hour / n * n, minute := 0 } = 1
    · rw [if_pos h2] at hbs
      simp only [Option.some_bind] at hbs
      rw [if_pos (by norm_num)] at hbs
      by_cases h3 : tz.resolveCount
          { dt with hour := dt.hour / n * n, minute := 0, second := 0 } = 1
      · rw [if_pos h3] at hbs
        simp only [Option.some_bind] at hbs
        rw [if_pos (by norm_num)] at hbs
        by_cases h4 : tz.resolveCount
            { dt with hour := dt.hour / n * n, minute := 0, second := 0, nano := 0 } = 1
        · rw [if_pos h4] at hbs
          have hbseq :
              bs = { dt with hour := dt.hour / n * n, minute := 0, second := 0, nano := 0 } :=
            (Option.some_inj.mp hbs).symm
          subst hbseq
          refine ⟨rfl, rfl, Nat.mul_mod_left _ _, hbh, ?_, rfl, rfl, rfl, ?_⟩
          · intro m hm hmle
            have hdvd : n ∣ m := Nat.dvd_of_mod_eq_zero hm
            calc m = m / n * n := (Nat.div_mul_cancel hdvd).symm
              _ ≤ dt.hour / n * n := by
                  exact Nat.mul_le_mul_right n (Nat.div_le_div_right hmle)
          · simp only [block_end_of, hmax]
        · rw [if_neg h4] at hbs; exact absurd hbs (by simp)
      · rw [if_neg h3] at hbs; exact absurd hbs (by simp)
    · rw [if_neg h2] at hbs; exact absurd hbs (by simp)
  · rw [if_neg h1] at hbs; exact absurd hbs (by simp)

theorem block_start_spec_witness :
    1 ≤ 5 ∧ (13 : Nat) < 24 ∧
      ((⟨0, 10, 0, 0, 0⟩ : LocalDT).date = (⟨0, 13, 45, 7, 9⟩ : LocalDT).date ∧
        (⟨0, 10, 0, 0, 0⟩ : LocalDT).hour = (⟨0, 13, 45, 7, 9⟩ : LocalDT).hour / 5 * 5 ∧
        (⟨0, 10, 0, 0, 0⟩ : LocalDT).hour % 5 = 0 ∧
        (⟨0, 10, 0, 0, 0⟩ : LocalDT).hour ≤ (⟨0, 13, 45, 7, 9⟩ : LocalDT).hour ∧
        (∀ m : Nat, m % 5 = 0 → m ≤ (⟨0, 13, 45, 7, 9⟩ : LocalDT).hour →
          m ≤ (⟨0, 10, 0, 0, 0⟩ : LocalDT).hour) ∧
        (⟨0, 10, 0, 0, 0⟩ : LocalDT).minute = 0 ∧ (⟨0, 10, 0, 0, 0⟩ : LocalDT).second = 0 ∧
        (⟨0, 10, 0, 0, 0⟩ : LocalDT).nano = 0 ∧
        block_end_of ⟨0, 10, 0, 0, 0⟩ 5 = addHoursWall ⟨0, 10, 0, 0, 0⟩ 5) :=
  ⟨by decide, by decide,
    block_start_spec tzFixed 5 ⟨0, 13, 45, 7, 9⟩ ⟨0, 10, 0, 0, 0⟩
      (by decide) (by decide) (by rfl)⟩

/-- C9 (counterexample): in a timezone whose DST gap swallows hour 0 of the
local date — as on real South American DST-start days — an event at local
01:30 with block length 2 sends `with_hour 0` into the gap, the chain
returns `none`, and the `expect("valid datetime")` branch panics: the
construction does not always succeed. -/
theorem block_start_panics_in_dst_gap :
    block_start_of tzMidnightGap 2 ⟨0, 1, 30, 0, 0⟩ = none := by
  rfl

/-- C9 (amended): the `expect("valid datetime")` branch is unreachable
whenever every wall-clock reading of the configured timezone resolves to
exactly one instant (in particular for every fixed-offset timezone such as
UTC); on a date with a DST transition the edited local time can fall into
the gap or the fold and the chain can return `none`. -/
theorem block_start_total_for_unambiguous_tz (tz : TzModel) (n : Nat) (dt : LocalDT)
    (htz : ∀ d, tz.resolveCount d = 1) (hh : dt.hour < 24) :
    (block_start_of tz n dt).isSome = true := by
  have hbh : dt.hour / max n 1 * max n 1 ≤ dt.hour := Nat.div_mul_le_self _ _
  simp only [block_start_of, withHourTz, withMinuteTz, withSecondTz, withNanoTz, htz]
  rw [if_pos (lt_of_le_of_lt hbh hh)]
  simp

theorem block_start_total_for_unambiguous_tz_witness :
    (∀ d, tzFixed.resolveCount d = 1) ∧ (7 : Nat) < 24 ∧
      (block_start_of tzFixed 5 ⟨3, 7, 8, 9, 10⟩).isSome = true :=
  ⟨fun _ => rfl, by decide,
    block_start_total_for_unambiguous_tz tzFixed 5 ⟨3, 7, 8, 9, 10⟩ (fun _ => rfl) (by decide)⟩

/-! ## Pricing: `Pricing`, `PricingIndex`, `normalize_model_for_pricing`,
`build_pricing_index` -/

/-- The `Pricing` record (src/main.rs:420-428); the four `f64` per-million
rates become exact rationals. -/
structure Pricing where
  input_per_million : Rat
  output_per_million : Rat
  cache_create_per_million : Rat
  cache_read_per_million : Rat
deriving DecidableEq, Repr

/-- `PricingIndex` (src/main.rs:430-433): entries sorted longest key
first. -/
structure PricingIndex where
  entries : List (String × Pricing)
deriving DecidableEq, Repr

/-- The comparator of `PricingIndex::from_map`:
`b.0.len().cmp(&a.0.len())` orders longer keys first. -/
def lenGe (a b : String × Pricing) : Prop :=
  rsLen b.1 ≤ rsLen a.1

instance : DecidableRel lenGe := fun _ _ => Nat.decLe _ _

instance : IsTotal (String × Pricing) lenGe :=
  ⟨fun a b => Nat.le_total (rsLen b.1) (rsLen a.1)⟩

instance : IsTrans (String × Pricing) lenGe :=
  ⟨fun _ _ _ h1 h2 => le_trans h2 h1⟩

/-- `PricingIndex::from_map` (src/main.rs:436-441): collect the map's
entries (one iteration order, given as the input list) and stable-sort them
with longest keys first. -/
def PricingIndex.from_map (entries : List (String × Pricing)) : PricingIndex :=
  ⟨List.insertionSort lenGe entries⟩

/-- `PricingIndex::find` (src/main.rs:443-448): first entry whose key is a
leading piece of the queried model string. -/
def PricingIndex.find (idx : PricingIndex) (model : String) : Option Pricing :=
  (idx.entries.find? (fun kv => rsStartsWith model kv.1)).map Prod.snd

/-- `normalize_model_for_pricing` (src/main.rs:1291-1303): lowercase, then
strip each of the vendor-routing markers in turn. -/
def normalize_model_for_pricing (model : String) : String :=
  let m := rsToLowercase model
  let m := stripPre "anthropic/" m
  let m := stripPre "openrouter/" m
  stripPre "openai/" m

/-- One `combined.entry(key).or_insert(pricing)` step of
`build_pricing_index`: insert only when the key is absent (first insertion
wins). -/
def insertAbsent (m : List (String × Pricing)) (k : String) (v : Pricing) :
    List (String × Pricing) :=
  match m.lookup k with
  | some _ => m
  | none => m ++ [(k, v)]

/-- The `combined` map of `build_pricing_index` (src/main.rs:1063-1073):
each raw entry is inserted under its original key and then under its
normalized key, with first-insertion-wins semantics; the input list is one
iteration order of the raw `HashMap`. -/
def build_pricing_index_entries (raw : List (String × Pricing)) :
    List (String × Pricing) :=
  raw.foldl
    (fun m kv =>
      insertAbsent (insertAbsent m kv.1 kv.2) (normalize_model_for_pricing kv.1) kv.2)
    []

/-- `build_pricing_index` (src/main.rs:1063-1073). -/
def build_pricing_index (raw : List (String × Pricing)) : PricingIndex :=
  PricingIndex.from_map (build_pricing_index_entries raw)

/-- The flat sequence of insertions `build_pricing_index` attempts, in
order: for each raw entry first its original key, then its normalized
key. -/
def doubledIns : List (String × Pricing) → List (String × Pricing)
  | [] => []
  | kv :: rest => (kv.1, kv.2) :: (normalize_model_for_pricing kv.1, kv.2) :: doubledIns rest

/-! ### Pricing lemmas -/

theorem lookup_append_single (m : List (String × Pricing)) (k' k : String) (v : Pricing) :
    (m ++ [(k', v)]).lookup k =
      match m.lookup k with
      | some w => some w
      | none => if k == k' then some v else none := by
  induction m with
  | nil =>
      by_cases h : k = k'
      · simp [List.lookup, h]
      · rw [List.lookup, show (k == k') = false from beq_eq_false_iff_ne.mpr h]
        simp [h]
  | cons kv rest ih =>
      by_cases h : k == kv.1
      · simp [List.lookup, h]
      · simp only [List.cons_append, List.lookup, h]
        exact ih

theorem lookup_insertAbsent (m : List (String × Pricing)) (k' k : String) (v : Pricing) :
    (insertAbsent m k' v).lookup k =
      match m.lookup k with
      | some w => some w
      | none => if k == k' then some v else none := by
  unfold insertAbsent
  cases hm' : m.lookup k' with
  | some w' =>
      cases hm : m.lookup k with
      | some w => simp [hm]
      | none =>
          simp only [hm]
          have hk : (k == k') = false := by
            by_contra hkk
            have : k = k' := by
              have := eq_of_beq (a := k) (b := k')
              exact this (by simpa using hkk)
            rw [this, hm'] at hm
            exact Option.noConfusion hm
          simp [hk]
  | none =>
      rw [lookup_append_single]

theorem lookup_build_aux (raw : List (String × Pricing)) :
    ∀ (m : List (String × Pricing)) (k : String),
      ((raw.foldl
          (fun m kv =>
            insertAbsent (insertAbsent m kv.1 kv.2) (normalize_model_for_pricing kv.1) kv.2)
          m).lookup k) =
        match m.lookup k with
        | some w => some w
        | none => (doubledIns raw).lookup k := by
  induction raw with
  | nil =>
      intro m k
      cases hm : m.lookup k <;> simp [doubledIns, List.lookup, hm]
  | cons kv rest ih =>
      intro m k
      simp only [List.foldl_cons]
      rw [ih]
      rw [lookup_insertAbsent, lookup_insertAbsent]
      cases hm : m.lookup k with
      | some w => simp [hm]
      | none =>
          by_cases h1 : k == kv.1
          · simp [doubledIns, List.lookup, h1]
          · by_cases h2 : k == normalize_model_for_pricing kv.1
            · simp [doubledIns, List.lookup, h1, h2]
            · simp [doubledIns, List.lookup, h1, h2]

/-- C6 (amended): the combined pricing map realizes exactly
first-insertion-wins over the flat insertion sequence — for every key, its
value is the pricing of the earliest insertion (original key first, then
normalized key, per raw entry, in processing order) that targets it. -/
theorem build_pricing_index_first_insertion_wins
    (raw : List (String × Pricing)) (k : String) :
    (build_pricing_index_entries raw).lookup k = (doubledIns raw).lookup k := by
  have h := lookup_build_aux raw [] k
  simpa [build_pricing_index_entries, List.lookup] using h

/-- A pricing distinct from `pB`, used to exhibit order dependence. -/
def pA : Pricing := ⟨1, 1, 0, 0⟩

/-- A pricing distinct from `pA`. -/
def pB : Pricing := ⟨2, 2, 0, 0⟩

/-- C6 (counterexample): processing `("anthropic/x", pA)` before
`("x", pB)` stores `pA` under the key `"x"` — the normalized insertion of
the first entry beats the original-key insertion of the second, so the
original key does not take precedence regardless of processing order. -/
theorem build_pricing_index_original_key_loses :
    (build_pricing_index_entries [("anthropic/x", pA), ("x", pB)]).lookup "x" = some pA ∧
      pA ≠ pB := by
  constructor
  · decide
  · decide

theorem string_toList_inj {s t : String} (h : s.toList = t.toList) : s = t := by
  cases s
  cases t
  exact congrArg String.mk (by simpa [String.toList] using h)

theorem isPrefixOf_same_length_eq :
    ∀ {p q s : List Char}, p.isPrefixOf s = true → q.isPrefixOf s = true →
      p.length = q.length → p = q
  | [], q, _, _, _, hl => by
      have : q.length = 0 := by simpa using hl.symm
      simp [List.length_eq_zero.mp this]
  | a :: as, q, [], hp, _, _ => by simp [List.isPrefixOf] at hp
  | a :: as, [], b :: bs, _, _, hl => by simp at hl
  | a :: as, c :: cs, b :: bs, hp, hq, hl => by
      simp only [List.isPrefixOf, Bool.and_eq_true, beq_iff_eq] at hp hq
      have hlen : as.length = cs.length := by simpa using hl
      have := isPrefixOf_same_length_eq hp.2 hq.2 hlen
      rw [hp.1, hq.1, this]

theorem find_first_longest (model : String) :
    ∀ (l : List (String × Pricing)) (k : String) (p : Pricing),
      l.Pairwise lenGe →
      (l.map Prod.fst).Nodup →
      (k, p) ∈ l →
      rsStartsWith model k = true →
      (∀ k' p', (k', p') ∈ l → rsStartsWith model k' = true → rsLen k' ≤ rsLen k) →
      (l.find? (fun kv => rsStartsWith model kv.1)).map Prod.snd = some p := by
  intro l
  induction l with
  | nil => intro k p _ _ hmem _ _; exact absurd hmem (List.not_mem_nil _)
  | cons hd tl ih =>
      intro k p hsort hnodup hmem hk hmax
      by_cases h0 : rsStartsWith model hd.1 = true
      · have hfind : List.find? (fun kv => rsStartsWith model kv.1) (hd :: tl) = some hd := by
          rw [List.find?_cons]
          simp [h0]
        rw [hfind]
        rcases List.mem_cons.mp hmem with heq | hmem'
        · rw [← heq]
          rfl
        · exfalso
          have hge : rsLen k ≤ rsLen hd.1 := (List.pairwise_cons.mp hsort).1 _ hmem'
          have hle : rsLen hd.1 ≤ rsLen k :=
            hmax hd.1 hd.2 (List.mem_cons_self _ _) h0
          have hlen : hd.1.toList.length = k.toList.length :=
            le_antisymm hle hge
          have hkeq : hd.1 = k :=
            string_toList_inj (isPrefixOf_same_length_eq h0 hk hlen)
          have hnotin : hd.1 ∉ tl.map Prod.fst := (List.nodup_cons.mp hnodup).1
          exact hnotin (hkeq ▸ List.mem_map.mpr ⟨(k, p), hmem', rfl⟩)
      · have h0f : rsStartsWith model hd.1 = false := by simpa using h0
        have hfind : List.find? (fun kv => rsStartsWith model kv.1) (hd :: tl) =
            List.find? (fun kv => rsStartsWith model kv.1) tl := by
          rw [List.find?_cons]
          simp [h0f]
        rw [hfind]
        have hmem' : (k, p) ∈ tl := by
          rcases List.mem_cons.mp hmem with heq | hmem'
          · exact absurd (by rw [← heq] at h0; exact h0) (by simp [hk])
          · exact hmem'
        exact ih k p (List.pairwise_cons.mp hsort).2 (List.nodup_cons.mp hnodup).2 hmem' hk
          (fun k' p' hm hs => hmax k' p' (List.mem_cons_of_mem _ hm) hs)

/-- C2: in an index built by `PricingIndex::from_map`, the entry whose key
is the longest leading piece of the queried model always wins; in
particular, with both `"claude-3"` and `"claude-3-opus"` present (either
iteration order), `"claude-3-opus-20240229"` resolves to the
`"claude-3-opus"` pricing and `"claude-3-haiku"` falls back to the
`"claude-3"` pricing. -/
theorem pricing_find_longest_match :
    (∀ (entries : List (String × Pricing)) (model k : String) (p : Pricing),
        (entries.map Prod.fst).Nodup →
        (k, p) ∈ entries →
        rsStartsWith model k = true →
        (∀ k' p', (k', p') ∈ entries → rsStartsWith model k' = true → rsLen k' ≤ rsLen k) →
        (PricingIndex.from_map entries).find model = some p)
    ∧
    (∀ p1 p2 : Pricing,
        (PricingIndex.from_map [("claude-3", p1), ("claude-3-opus", p2)]).find
            "claude-3-opus-20240229" = some p2 ∧
        (PricingIndex.from_map [("claude-3", p1), ("claude-3-opus", p2)]).find
            "claude-3-haiku" = some p1 ∧
        (PricingIndex.from_map [("claude-3-opus", p2), ("claude-3", p1)]).find
            "claude-3-opus-20240229" = some p2 ∧
        (PricingIndex.from_map [("claude-3-opus", p2), ("claude-3", p1)]).find
            "claude-3-haiku" = some p1) := by
  constructor
  · intro entries model k p hnodup hmem hk hmax
    have hperm := List.perm_insertionSort lenGe entries
    have hsort : (List.insertionSort lenGe entries).Pairwise lenGe :=
      List.sorted_insertionSort lenGe entries
    have hnodup' : ((List.insertionSort lenGe entries).map Prod.fst).Nodup :=
      ((hperm.map Prod.fst).nodup_iff).mpr hnodup
    have hmem' : (k, p) ∈ List.insertionSort lenGe entries := hperm.mem_iff.mpr hmem
    have hmax' : ∀ k' p', (k', p') ∈ List.insertionSort lenGe entries →
        rsStartsWith model k' = true → rsLen k' ≤ rsLen k :=
      fun k' p' hm hs => hmax k' p' (hperm.mem_iff.mp hm) hs
    exact find_first_longest model _ k p hsort hnodup' hmem' hk hmax'
  · intro p1 p2
    exact ⟨rfl, rfl, rfl, rfl⟩

theorem pricing_find_longest_match_witness :
    ((([("claude-3", pA), ("claude-3-opus", pB)] : List (String × Pricing)).map
        Prod.fst).Nodup ∧
      ("claude-3-opus", pB) ∈ [("claude-3", pA), ("claude-3-opus", pB)] ∧
      rsStartsWith "claude-3-opus-20240229" "claude-3-opus" = true) ∧
      (PricingIndex.from_map [("claude-3", pA), ("claude-3-opus", pB)]).find
        "claude-3-opus-20240229" = some pB :=
  ⟨⟨by decide, by decide, by decide⟩,
    pricing_find_longest_match.1 [("claude-3", pA), ("claude-3-opus", pB)]
      "claude-3-opus-20240229" "claude-3-opus" pB (by decide) (by decide) (by decide)
      (by
        intro k' p' hm hs
        simp only [List.mem_cons, List.not_mem_nil, or_false, Prod.mk.injEq] at hm
        rcases hm with ⟨h1, _⟩ | ⟨h1, _⟩ <;> subst h1 <;> decide)⟩

/-! ## Event normalization: `RawRecord`, `to_usage_event`, `calculate_cost`

`parse_timestamp` (src/main.rs:1285-1289) is a direct call into chrono's
RFC-3339 parser; it is modelled as an explicit functional parameter
`parseTs : String → Option Int` (`none` exactly when chrono rejects the
string), and the instant is an `Int` (UTC timeline point).  The global
`PRICING_INDEX`/`COST_MODE` OnceCells become explicit arguments:
`idx : Option PricingIndex` is `PRICING_INDEX.get()` and `mode` the
resolved `COST_MODE.get().copied().unwrap_or(CostMode::Auto)`. -/

/-- `RawUsage` (src/main.rs:281-287). -/
structure RawUsage where
  input_tokens : Option Nat
  output_tokens : Option Nat
  cache_creation_input_tokens : Option Nat
  cache_read_input_tokens : Option Nat
deriving DecidableEq, Repr

/-- `RawMessage` (src/main.rs:270-279); the deserialization-only `id`
field is omitted. -/
structure RawMessage where
  usage : Option RawUsage
  model : Option String
deriving DecidableEq, Repr

/-- `RawRecord` (src/main.rs:247-268); deserialization-only fields that
`to_usage_event` never reads (`cwd`, `version`, `request_id`,
`is_api_error_message`) are omitted. -/
structure RawRecord where
  session_id : Option String
  timestamp : String
  message : Option RawMessage
  usage : Option RawUsage
  cost_usd : Option Rat
deriving DecidableEq, Repr

/-- `UsageEvent` (src/main.rs:289-300). -/
structure UsageEvent where
  timestamp : Int
  project : String
  session_id : String
  model : Option String
  input_tokens : Nat
  output_tokens : Nat
  cache_creation_tokens : Nat
  cache_read_tokens : Nat
  cost_usd : Rat
deriving DecidableEq, Repr

/-- The `CostMode` configuration enum. -/
inductive CostMode where
  | auto
  | calculate
  | preferField
deriving DecidableEq, Repr

/-- `calculate_cost` (src/main.rs:1305-1323). -/
def calculate_cost (idx : Option PricingIndex) (model : Option String)
    (input output cache_creation cache_read : Nat) : Rat :=
  match model with
  | none => 0
  | some model_name =>
    let normalized := normalize_model_for_pricing model_name
    match idx.bind (fun i => i.find normalized) with
    | none => 0
    | some pricing =>
      let input_tokens := input + cache_creation + cache_read
      let input_cost := (input_tokens : Rat) / 1000000 * pricing.input_per_million
        + (cache_creation : Rat) / 1000000 * pricing.cache_create_per_million
        + (cache_read : Rat) / 1000000 * pricing.cache_read_per_million
      let output_cost := (output : Rat) / 1000000 * pricing.output_per_million
      input_cost + output_cost

/-- The usage object selected by `to_usage_event`
(src/main.rs:1244-1247): the nested message-level usage object first, the
top-level one as fallback. -/
def usageOf (raw : RawRecord) : Option RawUsage :=
  match raw.message.bind (fun m => m.usage) with
  | some u => some u
  | none => raw.usage

/-- `to_usage_event` (src/main.rs:1241-1283). -/
def to_usage_event (parseTs : String → Option Int) (idx : Option PricingIndex)
    (mode : CostMode) (raw : RawRecord) (project session_id : String) :
    Option UsageEvent :=
  match parseTs raw.timestamp with
  | none => none
  | some ts =>
    match usageOf raw with
    | none => none
    | some usage =>
      let input_tokens := usage.input_tokens.getD 0
      let output_tokens := usage.output_tokens.getD 0
      let cache_creation_tokens := usage.cache_creation_input_tokens.getD 0
      let cache_read_tokens := usage.cache_read_input_tokens.getD 0
      let model := raw.message.bind (fun m => m.model)
      let cost :=
        match mode with
        | .calculate =>
            calculate_cost idx model input_tokens output_tokens
              cache_creation_tokens cache_read_tokens
        | .preferField | .auto =>
            match raw.cost_usd with
            | some c => c
            | none =>
                calculate_cost idx model input_tokens output_tokens
                  cache_creation_tokens cache_read_tokens
      some {
        timestamp := ts
        project := project
        session_id := raw.session_id.getD session_id
        model := model
        input_tokens := input_tokens
        output_tokens := output_tokens
        cache_creation_tokens := cache_creation_tokens
        cache_read_tokens := cache_read_tokens
        cost_usd := cost }

/-- C7: normalization returns `none` exactly when the timestamp fails to
parse or no usage object (message-level or top-level) is present; in the
successful case each absent token field defaults to zero and the session id
is the record's own session field when present, else the caller's hint. -/
theorem to_usage_event_spec (parseTs : String → Option Int) (idx : Option PricingIndex)
    (mode : CostMode) (raw : RawRecord) (project session_id : String) :
    (to_usage_event parseTs idx mode raw project session_id = none ↔
      parseTs raw.timestamp = none ∨ usageOf raw = none)
    ∧ (∀ (ev : UsageEvent) (u : RawUsage),
        to_usage_event parseTs idx mode raw project session_id = some ev →
        usageOf raw = some u →
        ev.input_tokens = u.input_tokens.getD 0 ∧
        ev.output_tokens = u.output_tokens.getD 0 ∧
        ev.cache_creation_tokens = u.cache_creation_input_tokens.getD 0 ∧
        ev.cache_read_tokens = u.cache_read_input_tokens.getD 0 ∧
        ev.session_id = raw.session_id.getD session_id) := by
  constructor
  · cases hts : parseTs raw.timestamp <;> cases hu : usageOf raw <;>
      simp [to_usage_event, hts, hu]
  · intro ev u he hu
    cases hts : parseTs raw.timestamp with
    | none => simp [to_usage_event, hts] at he
    | some ts =>
        simp only [to_usage_event, hts, hu] at he
        have hrec := Option.some_inj.mp he
        subst hrec
        exact ⟨rfl, rfl, rfl, rfl, rfl⟩

/-- Concrete RFC-3339 parser stub used by witnesses: accepts exactly the
string `"t"`. -/
def pT0 : String → Option Int := fun s => if s = "t" then some 42 else none

/-- Concrete usage object used by witnesses: only `input_tokens` and
`cache_read_input_tokens` present. -/
def u0 : RawUsage := ⟨some 3, none, none, some 7⟩

/-- Concrete raw record used by witnesses. -/
def raw0 : RawRecord := ⟨some "sessA", "t", none, some u0, some 2⟩

/-- The event `to_usage_event` produces from `raw0`. -/
def ev0 : UsageEvent := ⟨42, "proj", "sessA", none, 3, 0, 0, 7, 2⟩

theorem to_usage_event_spec_witness :
    (to_usage_event pT0 none CostMode.auto raw0 "proj" "hint" = some ev0 ∧
      usageOf raw0 = some u0) ∧
      (ev0.input_tokens = u0.input_tokens.getD 0 ∧
        ev0.output_tokens = u0.output_tokens.getD 0 ∧
        ev0.cache_creation_tokens = u0.cache_creation_input_tokens.getD 0 ∧
        ev0.cache_read_tokens = u0.cache_read_input_tokens.getD 0 ∧
        ev0.session_id = raw0.session_id.getD "hint") :=
  ⟨⟨by decide, by decide⟩,
    (to_usage_event_spec pT0 none CostMode.auto raw0 "proj" "hint").2 ev0 u0
      (by decide) (by decide)⟩

/-! ## Line readers: `load_events` (batch) and `read_new_events` (live)

serde's per-line JSON parsing (`serde_json::from_str::<RawRecord>`) is an
external library call, modelled as an explicit parameter
`parseRec : String → Option RawRecord`.  File contents are `List Char`
(the byte sequence; offsets count characters, which agrees with bytes on
the ASCII log data). -/

/-- The per-line body of the `load_events` loop (src/main.rs:1133-1149):
skip lines without the substring `"input_tokens"`, then parse, then
normalize. -/
def load_line (parseRec : String → Option RawRecord) (parseTs : String → Option Int)
    (idx : Option PricingIndex) (mode : CostMode) (project session_id : String)
    (line : String) : Option UsageEvent :=
  if rsContains line "input_tokens" then
    (parseRec line).bind (fun r => to_usage_event parseTs idx mode r project session_id)
  else none

/-- Rust `buf.trim().is_empty()`: every character is whitespace. -/
def isBlankLine (line : String) : Bool :=
  line.toList.all (fun c => c.isWhitespace)

/-- The per-line body of the `read_new_events` loop
(src/main.rs:1226-1235): skip blank lines, then parse, then normalize — no
substring pre-filter. -/
def live_line (parseRec : String → Option RawRecord) (parseTs : String → Option Int)
    (idx : Option PricingIndex) (mode : CostMode) (project session_id : String)
    (line : String) : Option UsageEvent :=
  if isBlankLine line then none
  else (parseRec line).bind (fun r => to_usage_event parseTs idx mode r project session_id)

/-- The chunks successive `BufRead::read_line` calls return: each complete
line including its terminating newline, plus — when the data does not end
in a newline — the trailing partial line. -/
def splitReadChunks : List Char → List Char → List (List Char)
  | acc, [] => if acc.isEmpty then [] else [acc.reverse]
  | acc, c :: rest =>
      if c = '\n' then (acc.reverse ++ ['\n']) :: splitReadChunks [] rest
      else splitReadChunks (c :: acc) rest

/-- `read_new_events` (src/main.rs:1204-1238): seek to `start`, then for
every `read_line` chunk advance `position` by the chunk's byte count and
normalize the chunk; returns the final `position` and the events. -/
def read_new_events (parseRec : String → Option RawRecord) (parseTs : String → Option Int)
    (idx : Option PricingIndex) (mode : CostMode) (project session_id : String)
    (content : List Char) (start : Nat) : Nat × List UsageEvent :=
  (splitReadChunks [] (content.drop start)).foldl
    (fun acc l =>
      let position := acc.1 + l.length
      match live_line parseRec parseTs idx mode project session_id (String.mk l) with
      | some ev => (position, acc.2 ++ [ev])
      | none => (position, acc.2))
    (start, [])

/-- Length of the trailing partial (not newline-terminated) line of a byte
sequence. -/
def trailingPartialLen (cs : List Char) : Nat :=
  (cs.reverse.takeWhile (fun c => c ≠ '\n')).length

/-- The byte position immediately after the last complete
(newline-terminated) line of a byte sequence. -/
def completeLinesLen (cs : List Char) : Nat :=
  cs.length - trailingPartialLen cs

/-- A parser stub accepting exactly the line `"x"`, producing a record
whose usage object carries only `output_tokens`. -/
def pR0 : String → Option RawRecord :=
  fun s => if s = "x" then some ⟨none, "t", none, some ⟨none, some 5, none, none⟩, none⟩ else none

/-- The event `pR0`'s record normalizes to. -/
def evX : UsageEvent := ⟨42, "proj", "hint", none, 0, 5, 0, 0, 0⟩

/-- C10: the batch loader drops any line lacking the substring
`"input_tokens"` before parsing, while the live reader normalizes every
non-blank line with no substring pre-filter; a line that normalizes to a
usage event (usage object carrying only `output_tokens`) is therefore
produced by the live reader but skipped by the batch loader. -/
theorem load_line_filters_live_line_does_not :
    (∀ (parseRec : String → Option RawRecord) (parseTs : String → Option Int)
        (idx : Option PricingIndex) (mode : CostMode) (project session_id line : String),
        rsContains line "input_tokens" = false →
        load_line parseRec parseTs idx mode project session_id line = none)
    ∧ (∀ (parseRec : String → Option RawRecord) (parseTs : String → Option Int)
        (idx : Option PricingIndex) (mode : CostMode) (project session_id line : String),
        isBlankLine line = false →
        live_line parseRec parseTs idx mode project session_id line =
          (parseRec line).bind
            (fun r => to_usage_event parseTs idx mode r project session_id))
    ∧ (live_line pR0 pT0 none CostMode.auto "proj" "hint" "x" = some evX ∧
        load_line pR0 pT0 none CostMode.auto "proj" "hint" "x" = none) := by
  refine ⟨?_, ?_, by decide, by decide⟩
  · intro parseRec parseTs idx mode project session_id line h
    simp [load_line, h]
  · intro parseRec parseTs idx mode project session_id line h
    simp [live_line, h]

theorem load_line_filters_live_line_does_not_witness :
    (rsContains "x" "input_tokens" = false ∧
      load_line pR0 pT0 none CostMode.auto "proj" "hint" "x" = none) ∧
      (isBlankLine "x" = false ∧
        live_line pR0 pT0 none CostMode.auto "proj" "hint" "x" =
          (pR0 "x").bind (fun r => to_usage_event pT0 none CostMode.auto r "proj" "hint")) :=
  ⟨⟨by decide,
      load_line_filters_live_line_does_not.1 pR0 pT0 none CostMode.auto "proj" "hint" "x"
        (by decide)⟩,
    ⟨by decide,
      load_line_filters_live_line_does_not.2.1 pR0 pT0 none CostMode.auto "proj" "hint" "x"
        (by decide)⟩⟩

/-- A parser stub accepting exactly the partial line `"a"`. -/
def pR1 : String → Option RawRecord :=
  fun s => if s = "a" then some ⟨none, "t", none, some ⟨none, some 5, none, none⟩, none⟩ else none

/-- C3 (code evaluated at the failing input): on a file whose content is
the single byte `a` — a partial line with no terminating newline —
`read_new_events` from offset 0 consumes the partial line (even producing
an event when it happens to parse) and returns offset 1, the raw file
length, although the position after the last complete line is 0; the
partial line is therefore not re-read on a later refresh, contradicting
the claim. -/
theorem read_new_events_consumes_partial_line :
    read_new_events pR1 pT0 none CostMode.auto "proj" "hint" ['a'] 0 = (1, [evX]) ∧
      completeLinesLen ['a'] = 0 ∧ List.length ['a'] = 1 := by
  refine ⟨by decide, by decide, by decide⟩

/-! ## Aggregation engine

All five report builders (`build_daily_report`, `build_weekly_report`,
`build_monthly_report`, `build_session_report`, `build_blocks_report`)
share one shape: filter the events, fold each surviving event into a
`BTreeMap` bucket selected by a grouping key, convert the buckets to rows,
sort, and total.  The embedding keeps the bucket map generic in the key
type `K` (a `LinearOrder`, mirroring the `BTreeMap` key requirement) and in
the filter predicate, which the five builders instantiate with their
date/project/cutoff conditions and grouping keys.  `BTreeMap`/`BTreeSet`
are association lists / lists kept sorted (strictly ascending) by key. -/

/-- `ModelBreakdown` (src/main.rs:302-311). -/
structure ModelBreakdown where
  model : String
  input_tokens : Nat
  output_tokens : Nat
  cache_creation_tokens : Nat
  cache_read_tokens : Nat
  total_tokens : Nat
  cost_usd : Rat
deriving DecidableEq, Repr

/-- `ModelAccumulator` (src/main.rs:1797-1804). -/
structure ModelAccumulator where
  input_tokens : Nat
  output_tokens : Nat
  cache_creation_tokens : Nat
  cache_read_tokens : Nat
  cost_usd : Rat
deriving DecidableEq, Repr

/-- `ModelAccumulator::default()`. -/
def ModelAccumulator.zero : ModelAccumulator := ⟨0, 0, 0, 0, 0⟩

/-- `ModelAccumulator::add` (src/main.rs:1807-1813). -/
def ModelAccumulator.add (a : ModelAccumulator) (ev : UsageEvent) : ModelAccumulator :=
  ⟨a.input_tokens + ev.input_tokens, a.output_tokens + ev.output_tokens,
    a.cache_creation_tokens + ev.cache_creation_tokens,
    a.cache_read_tokens + ev.cache_read_tokens, a.cost_usd + ev.cost_usd⟩

/-- `ModelAccumulator::add_from_breakdown` (src/main.rs:2768-2776). -/
def ModelAccumulator.add_from_breakdown (a : ModelAccumulator) (mb : ModelBreakdown) :
    ModelAccumulator :=
  ⟨a.input_tokens + mb.input_tokens, a.output_tokens + mb.output_tokens,
    a.cache_creation_tokens + mb.cache_creation_tokens,
    a.cache_read_tokens + mb.cache_read_tokens, a.cost_usd + mb.cost_usd⟩

/-- `ModelAccumulator::finish` (src/main.rs:1815-1828). -/
def ModelAccumulator.finish (a : ModelAccumulator) (model : String) : ModelBreakdown :=
  ⟨model, a.input_tokens, a.output_tokens, a.cache_creation_tokens, a.cache_read_tokens,
    a.input_tokens + a.output_tokens + a.cache_creation_tokens + a.cache_read_tokens,
    a.cost_usd⟩

/-- Pointwise addition of model accumulators (proof-side helper). -/
def ModelAccumulator.plus (a b : ModelAccumulator) : ModelAccumulator :=
  ⟨a.input_tokens + b.input_tokens, a.output_tokens + b.output_tokens,
    a.cache_creation_tokens + b.cache_creation_tokens,
    a.cache_read_tokens + b.cache_read_tokens, a.cost_usd + b.cost_usd⟩

/-- `per_model.entry(model).or_insert_with(default).add(ev)`: sorted
association-list update of a `BTreeMap<String, ModelAccumulator>`. -/
def pmAdd : List (String × ModelAccumulator) → String → UsageEvent →
    List (String × ModelAccumulator)
  | [], mo, ev => [(mo, ModelAccumulator.zero.add ev)]
  | (k, a) :: rest, mo, ev =>
      if mo = k then (k, a.add ev) :: rest
      else if mo < k then (mo, ModelAccumulator.zero.add ev) :: (k, a) :: rest
      else (k, a) :: pmAdd rest mo ev

/-- `map.entry(mb.model).or_insert_with(default).add_from_breakdown(mb)` of
the `aggregate_models_from_*` folds (src/main.rs:2726-2738). -/
def mbAdd : List (String × ModelAccumulator) → ModelBreakdown →
    List (String × ModelAccumulator)
  | [], mb => [(mb.model, ModelAccumulator.zero.add_from_breakdown mb)]
  | (k, a) :: rest, mb =>
      if mb.model = k then (k, a.add_from_breakdown mb) :: rest
      else if mb.model < k then
        (mb.model, ModelAccumulator.zero.add_from_breakdown mb) :: (k, a) :: rest
      else (k, a) :: mbAdd rest mb

/-- `BTreeSet<String>` insertion. -/
def setInsert (x : String) : List String → List String
  | [] => [x]
  | y :: rest =>
      if x = y then y :: rest
      else if x < y then x :: y :: rest
      else y :: setInsert x rest

/-- `RowAccumulator` (src/main.rs:1735-1746). -/
structure RowAccumulator where
  key : String
  input_tokens : Nat
  output_tokens : Nat
  cache_creation_tokens : Nat
  cache_read_tokens : Nat
  cost_usd : Rat
  models : List String
  projects : List String
  per_model : List (String × ModelAccumulator)
deriving DecidableEq, Repr

/-- `RowAccumulator::new` (src/main.rs:1749-1754). -/
def RowAccumulator.new (key : String) : RowAccumulator :=
  ⟨key, 0, 0, 0, 0, 0, [], [], []⟩

/-- `RowAccumulator::add_event` (src/main.rs:1756-1770). -/
def RowAccumulator.add_event (acc : RowAccumulator) (ev : UsageEvent) : RowAccumulator :=
  let acc1 := { acc with
    input_tokens := acc.input_tokens + ev.input_tokens
    output_tokens := acc.output_tokens + ev.output_tokens
    cache_creation_tokens := acc.cache_creation_tokens + ev.cache_creation_tokens
    cache_read_tokens := acc.cache_read_tokens + ev.cache_read_tokens
    cost_usd := acc.cost_usd + ev.cost_usd }
  let acc2 :=
    match ev.model with
    | some model =>
        { acc1 with
          models := setInsert model acc1.models
          per_model := pmAdd acc1.per_model model ev }
    | none => acc1
  { acc2 with projects := setInsert ev.project acc2.projects }

/-- `Row` (src/main.rs:313-326). -/
structure Row where
  key : String
  input_tokens : Nat
  output_tokens : Nat
  cache_creation_tokens : Nat
  cache_read_tokens : Nat
  total_tokens : Nat
  cost_usd : Rat
  models : List String
  projects : List String
  model_breakdowns : List ModelBreakdown
deriving DecidableEq, Repr

/-- `RowAccumulator::finish` (src/main.rs:1772-1794). -/
def RowAccumulator.finish (acc : RowAccumulator) : Row :=
  { key := acc.key
    input_tokens := acc.input_tokens
    output_tokens := acc.output_tokens
    cache_creation_tokens := acc.cache_creation_tokens
    cache_read_tokens := acc.cache_read_tokens
    total_tokens := acc.input_tokens + acc.output_tokens + acc.cache_creation_tokens +
      acc.cache_read_tokens
    cost_usd := acc.cost_usd
    models := acc.models
    projects := acc.projects
    model_breakdowns := acc.per_model.map (fun kv => kv.2.finish kv.1) }

/-- `map.entry(key).or_insert_with(|| RowAccumulator::new(display_key))
.add_event(ev)`: sorted update of the `BTreeMap` of buckets shared by the
report builders. -/
def bucketsAdd {K : Type} [LinearOrder K] (disp : UsageEvent → String) :
    List (K × RowAccumulator) → K → UsageEvent → List (K × RowAccumulator)
  | [], k, ev => [(k, (RowAccumulator.new (disp ev)).add_event ev)]
  | (k0, a) :: rest, k, ev =>
      if k = k0 then (k0, a.add_event ev) :: rest
      else if k < k0 then
        (k, (RowAccumulator.new (disp ev)).add_event ev) :: (k0, a) :: rest
      else (k0, a) :: bucketsAdd disp rest k ev

/-- The shared aggregation loop of the report builders
(e.g. `build_daily_report`, src/main.rs:1336-1360): events failing the
filter touch no bucket, every surviving event is folded into exactly the
bucket its grouping key selects. -/
def aggregateRows {K : Type} [LinearOrder K] (keyf : UsageEvent → K)
    (disp : UsageEvent → String) (φ : UsageEvent → Bool) (events : List UsageEvent) :
    List (K × RowAccumulator) :=
  events.foldl (fun m ev => if φ ev then bucketsAdd disp m (keyf ev) ev else m) []

/-- `Totals` (src/main.rs:328-336). -/
structure Totals where
  input_tokens : Nat
  output_tokens : Nat
  cache_creation_tokens : Nat
  cache_read_tokens : Nat
  total_tokens : Nat
  cost_usd : Rat
deriving DecidableEq, Repr

/-- `calculate_totals` (src/main.rs:1906-1924); `calculate_session_totals`
and `calculate_block_totals` are verbatim copies over the session/block row
types. -/
def calculate_totals (rows : List Row) : Totals :=
  rows.foldl
    (fun t row =>
      ⟨t.input_tokens + row.input_tokens, t.output_tokens + row.output_tokens,
        t.cache_creation_tokens + row.cache_creation_tokens,
        t.cache_read_tokens + row.cache_read_tokens,
        t.total_tokens + row.total_tokens, t.cost_usd + row.cost_usd⟩)
    ⟨0, 0, 0, 0, 0, 0⟩

/-- The `Order` configuration enum. -/
inductive Order where
  | asc
  | desc
deriving DecidableEq, Repr

/-- `sort_rows` (src/main.rs:2716-2724): stable sort by display key,
ascending or descending. -/
def sort_rows (order : Order) (rows : List Row) : List Row :=
  match order with
  | .asc => List.insertionSort (fun a b => a.key ≤ b.key) rows
  | .desc => List.insertionSort (fun a b => b.key ≤ a.key) rows

/-- `aggregate_models_from_rows` (src/main.rs:2726-2738);
`aggregate_models_from_session_rows` and `aggregate_models_from_blocks` are
verbatim copies over the session/block row types. -/
def aggregate_models_from_rows (rows : List Row) : List ModelBreakdown :=
  (rows.foldl (fun m row => row.model_breakdowns.foldl mbAdd m) []).map
    (fun kv => kv.2.finish kv.1)

/-- Modelled from the spec: "rerunning aggregation with model identity as
the only key, restricted to the same filtered event set" — a fold of the
filtered events into one `BTreeMap` keyed by the event's model (events
without a model carry no model identity and touch no bucket, exactly as
`RowAccumulator::add_event` only feeds `per_model` for events with a
model). -/
def aggregate_by_model (events : List UsageEvent) : List (String × ModelAccumulator) :=
  events.foldl
    (fun m ev =>
      match ev.model with
      | some mo => pmAdd m mo ev
      | none => m)
    []

/-- Lookup in a model-keyed association list. -/
def pmFind (mo : String) : List (String × ModelAccumulator) → Option ModelAccumulator
  | [] => none
  | (k, a) :: rest => if k = mo then some a else pmFind mo rest

/-- First breakdown in a list carrying the given model. -/
def findBr (mo : String) (l : List ModelBreakdown) : Option ModelBreakdown :=
  l.find? (fun mb => mb.model == mo)

/-! ### Totals preservation (C1) -/

section BucketSums

variable {K : Type} [LinearOrder K] {M : Type} [AddCommMonoid M]

theorem sumG_bucketsAdd (g : RowAccumulator → M) (h : UsageEvent → M)
    (hg : ∀ a e, g (a.add_event e) = g a + h e)
    (hnew : ∀ s, g (RowAccumulator.new s) = 0)
    (disp : UsageEvent → String) (m : List (K × RowAccumulator)) (k : K) (ev : UsageEvent) :
    ((bucketsAdd disp m k ev).map (fun kv => g kv.2)).sum =
      (m.map (fun kv => g kv.2)).sum + h ev := by
  induction m with
  | nil => simp [bucketsAdd, hg, hnew]
  | cons kv rest ih =>
      rcases kv with ⟨k0, a⟩
      by_cases hk : k = k0
      · simp only [bucketsAdd, if_pos hk, List.map_cons, List.sum_cons, hg]
        abel
      · by_cases hlt : k < k0
        · simp only [bucketsAdd, if_neg hk, if_pos hlt, List.map_cons, List.sum_cons, hg, hnew]
          abel
        · simp only [bucketsAdd, if_neg hk, if_neg hlt, List.map_cons, List.sum_cons, ih]
          abel

theorem sumG_aggregateRows (g : RowAccumulator → M) (h : UsageEvent → M)
    (hg : ∀ a e, g (a.add_event e) = g a + h e)
    (hnew : ∀ s, g (RowAccumulator.new s) = 0)
    (keyf : UsageEvent → K) (disp : UsageEvent → String) (φ : UsageEvent → Bool)
    (events : List UsageEvent) :
    ((aggregateRows keyf disp φ events).map (fun kv => g kv.2)).sum =
      ((events.filter φ).map h).sum := by
  suffices hgen : ∀ m : List (K × RowAccumulator),
      (((events.foldl
          (fun m ev => if φ ev then bucketsAdd disp m (keyf ev) ev else m) m).map
            (fun kv => g kv.2)).sum) =
        (m.map (fun kv => g kv.2)).sum + ((events.filter φ).map h).sum by
    have := hgen []
    simpa [aggregateRows] using this
  induction events with
  | nil => intro m; simp
  | cons e es ih =>
      intro m
      by_cases hφ : φ e = true
      · have hstep := ih (bucketsAdd disp m (keyf e) e)
        rw [sumG_bucketsAdd g h hg hnew] at hstep
        simp only [List.foldl_cons, if_pos hφ, List.filter_cons, hφ, if_true, List.map_cons,
          List.sum_cons, hstep]
        abel
      · have hφf : φ e = false := by simpa using hφ
        have hstep := ih m
        simpa [List.filter_cons, hφf] using hstep

end BucketSums

theorem calculate_totals_eq (rows : List Row) :
    calculate_totals rows =
      ⟨(rows.map (fun r => r.input_tokens)).sum, (rows.map (fun r => r.output_tokens)).sum,
        (rows.map (fun r => r.cache_creation_tokens)).sum,
        (rows.map (fun r => r.cache_read_tokens)).sum,
        (rows.map (fun r => r.total_tokens)).sum, (rows.map (fun r => r.cost_usd)).sum⟩ := by
  suffices hgen : ∀ (t : Totals),
      rows.foldl
        (fun t row =>
          ⟨t.input_tokens + row.input_tokens, t.output_tokens + row.output_tokens,
            t.cache_creation_tokens + row.cache_creation_tokens,
            t.cache_read_tokens + row.cache_read_tokens,
            t.total_tokens + row.total_tokens, t.cost_usd + row.cost_usd⟩)
        t =
      ⟨t.input_tokens + (rows.map (fun r => r.input_tokens)).sum,
        t.output_tokens + (rows.map (fun r => r.output_tokens)).sum,
        t.cache_creation_tokens + (rows.map (fun r => r.cache_creation_tokens)).sum,
        t.cache_read_tokens + (rows.map (fun r => r.cache_read_tokens)).sum,
        t.total_tokens + (rows.map (fun r => r.total_tokens)).sum,
        t.cost_usd + (rows.map (fun r => r.cost_usd)).sum⟩ by
    have := hgen ⟨0, 0, 0, 0, 0, 0⟩
    simpa [calculate_totals] using this
  induction rows with
  | nil => intro t; simp
  | cons r rs ih =>
      intro t
      simp only [List.foldl_cons, List.map_cons, List.sum_cons, ih, Totals.mk.injEq]
      refine ⟨by omega, by omega, by omega, by omega, by omega, by ring⟩

/-- C1: for every grouping key function (covering the daily, weekly,
monthly, session and block keys), every filter predicate, and every
reordering of the finished rows (covering each report's sorting), each
field of `calculate_totals` over the rows equals the exact elementwise sum
over precisely the events that pass the filter. -/
theorem report_totals_eq_filtered_sums {K : Type} [LinearOrder K]
    (keyf : UsageEvent → K) (disp : UsageEvent → String) (φ : UsageEvent → Bool)
    (events : List UsageEvent) (rows : List Row)
    (hrows : rows.Perm ((aggregateRows keyf disp φ events).map (fun kv => kv.2.finish))) :
    (calculate_totals rows).input_tokens =
        ((events.filter φ).map (fun e => e.input_tokens)).sum ∧
      (calculate_totals rows).output_tokens =
        ((events.filter φ).map (fun e => e.output_tokens)).sum ∧
      (calculate_totals rows).cache_creation_tokens =
        ((events.filter φ).map (fun e => e.cache_creation_tokens)).sum ∧
      (calculate_totals rows).cache_read_tokens =
        ((events.filter φ).map (fun e => e.cache_read_tokens)).sum ∧
      (calculate_totals rows).total_tokens =
        ((events.filter φ).map (fun e =>
          e.input_tokens + e.output_tokens + e.cache_creation_tokens +
            e.cache_read_tokens)).sum ∧
      (calculate_totals rows).cost_usd =
        ((events.filter φ).map (fun e => e.cost_usd)).sum := by
  have hfin : ∀ (f : Row → Nat),
      (rows.map f).sum =
        ((aggregateRows keyf disp φ events).map (fun kv => f kv.2.finish)).sum := by
    intro f
    have h1 : (rows.map f).sum =
        (((aggregateRows keyf disp φ events).map (fun kv => kv.2.finish)).map f).sum :=
      (hrows.map f).sum_eq
    rw [h1, List.map_map]
    rfl
  have hfinq : ∀ (f : Row → Rat),
      (rows.map f).sum =
        ((aggregateRows keyf disp φ events).map (fun kv => f kv.2.finish)).sum := by
    intro f
    have h1 : (rows.map f).sum =
        (((aggregateRows keyf disp φ events).map (fun kv => kv.2.finish)).map f).sum :=
      (hrows.map f).sum_eq
    rw [h1, List.map_map]
    rfl
  rw [calculate_totals_eq]
  refine ⟨?_, ?_, ?_, ?_, ?_, ?_⟩
  · rw [hfin (fun r => r.input_tokens)]
    exact sumG_aggregateRows (fun a => a.input_tokens) (fun e => e.input_tokens)
      (by intro a e; rcases e with ⟨t, p, s, mo, i, o, c1, c2, q⟩; cases mo <;> rfl)
      (fun _ => rfl) keyf disp φ events
  · rw [hfin (fun r => r.output_tokens)]
    exact sumG_aggregateRows (fun a => a.output_tokens) (fun e => e.output_tokens)
      (by intro a e; rcases e with ⟨t, p, s, mo, i, o, c1, c2, q⟩; cases mo <;> rfl)
      (fun _ => rfl) keyf disp φ events
  · rw [hfin (fun r => r.cache_creation_tokens)]
    exact sumG_aggregateRows (fun a => a.cache_creation_tokens)
      (fun e => e.cache_creation_tokens)
      (by intro a e; rcases e with ⟨t, p, s, mo, i, o, c1, c2, q⟩; cases mo <;> rfl)
      (fun _ => rfl) keyf disp φ events
  · rw [hfin (fun r => r.cache_read_tokens)]
    exact sumG_aggregateRows (fun a => a.cache_read_tokens) (fun e => e.cache_read_tokens)
      (by intro a e; rcases e with ⟨t, p, s, mo, i, o, c1, c2, q⟩; cases mo <;> rfl)
      (fun _ => rfl) keyf disp φ events
  · rw [hfin (fun r => r.total_tokens)]
    exact sumG_aggregateRows
      (fun a => a.input_tokens + a.output_tokens + a.cache_creation_tokens +
        a.cache_read_tokens)
      (fun e => e.input_tokens + e.output_tokens + e.cache_creation_tokens +
        e.cache_read_tokens)
      (by
        intro a e
        rcases e with ⟨t, p, s, mo, i, o, c1, c2, q⟩
        cases mo <;> simp [RowAccumulator.add_event] <;> omega)
      (fun _ => rfl) keyf disp φ events
  · rw [hfinq (fun r => r.cost_usd)]
    exact sumG_aggregateRows (fun a => a.cost_usd) (fun e => e.cost_usd)
      (by intro a e; rcases e with ⟨t, p, s, mo, i, o, c1, c2, q⟩; cases mo <;> rfl)
      (fun _ => rfl) keyf disp φ events

/-- Concrete events for witnesses. -/
def evA : UsageEvent := ⟨0, "p1", "s1", some "m1", 1, 2, 3, 4, 5⟩

/-- Concrete events for witnesses. -/
def evB : UsageEvent := ⟨1, "p2", "s2", none, 10, 20, 30, 40, 50⟩

theorem report_totals_eq_filtered_sums_witness :
    (((aggregateRows (fun e => e.timestamp) (fun _ => "d") (fun _ => true)
          [evA, evB]).map (fun kv => kv.2.finish)).Perm
        ((aggregateRows (fun e => e.timestamp) (fun _ => "d") (fun _ => true)
          [evA, evB]).map (fun kv => kv.2.finish))) ∧
      (calculate_totals
          ((aggregateRows (fun e => e.timestamp) (fun _ => "d") (fun _ => true)
            [evA, evB]).map (fun kv => kv.2.finish))).input_tokens =
        (([evA, evB].filter (fun _ => true)).map (fun e => e.input_tokens)).sum :=
  ⟨List.Perm.refl _,
    (report_totals_eq_filtered_sums (fun e => e.timestamp) (fun _ => "d") (fun _ => true)
      [evA, evB] _ (List.Perm.refl _)).1⟩

/-! ### Model-breakdown equivalence (C8) -/

/-- Strictly ascending keys: the invariant of a `BTreeMap<String, _>`
association list. -/
def SortedK (l : List (String × ModelAccumulator)) : Prop :=
  l.Pairwise (fun x y => x.1 < y.1)

theorem ModelAccumulator.plus_zero (a : ModelAccumulator) :
    a.plus ModelAccumulator.zero = a := by
  cases a
  simp [ModelAccumulator.plus, ModelAccumulator.zero]

theorem ModelAccumulator.zero_plus (a : ModelAccumulator) :
    ModelAccumulator.zero.plus a = a := by
  cases a
  simp [ModelAccumulator.plus, ModelAccumulator.zero]

theorem ModelAccumulator.plus_comm (a b : ModelAccumulator) : a.plus b = b.plus a := by
  cases a
  cases b
  simp only [ModelAccumulator.plus, ModelAccumulator.mk.injEq]
  refine ⟨by omega, by omega, by omega, by omega, by ring⟩

theorem ModelAccumulator.plus_assoc (a b c : ModelAccumulator) :
    (a.plus b).plus c = a.plus (b.plus c) := by
  cases a
  cases b
  cases c
  simp only [ModelAccumulator.plus, ModelAccumulator.mk.injEq]
  refine ⟨by omega, by omega, by omega, by omega, by ring⟩

theorem ModelAccumulator.add_eq_plus (a : ModelAccumulator) (e : UsageEvent) :
    a.add e = a.plus (ModelAccumulator.zero.add e) := by
  cases a
  simp only [ModelAccumulator.add, ModelAccumulator.plus, ModelAccumulator.zero,
    ModelAccumulator.mk.injEq]
  refine ⟨by omega, by omega, by omega, by omega, by ring⟩

theorem ModelAccumulator.addB_finish (x a : ModelAccumulator) (mo : String) :
    x.add_from_breakdown (a.finish mo) = x.plus a := by
  cases x
  cases a
  rfl

theorem pmFind_none_of_forall_ne {q : String} :
    ∀ {l : List (String × ModelAccumulator)}, (∀ y ∈ l, y.1 ≠ q) → pmFind q l = none
  | [], _ => rfl
  | (k, a) :: rest, h => by
      have hk : k ≠ q := h (k, a) (List.mem_cons_self _ _)
      simp only [pmFind, if_neg hk]
      exact pmFind_none_of_forall_ne (fun y hy => h y (List.mem_cons_of_mem _ hy))

theorem pmAdd_mem_keys {mo : String} {ev : UsageEvent} :
    ∀ {m : List (String × ModelAccumulator)} {y}, y ∈ pmAdd m mo ev →
      y.1 = mo ∨ y.1 ∈ m.map Prod.fst := by
  intro m
  induction m with
  | nil =>
      intro y hy
      simp only [pmAdd, List.mem_singleton] at hy
      subst hy
      exact Or.inl rfl
  | cons kv rest ih =>
      rcases kv with ⟨k, a⟩
      intro y hy
      simp only [pmAdd] at hy
      by_cases h1 : mo = k
      · rw [if_pos h1] at hy
        rcases List.mem_cons.mp hy with h | h
        · subst h; exact Or.inr (by simp [h1.symm])
        · exact Or.inr (by simp [List.mem_map]; exact Or.inr ⟨y.2, by simpa using h⟩)
      · rw [if_neg h1] at hy
        by_cases h2 : mo < k
        · rw [if_pos h2] at hy
          rcases List.mem_cons.mp hy with h | h
          · subst h; exact Or.inl rfl
          · rcases List.mem_cons.mp h with h' | h'
            · subst h'; exact Or.inr (by simp)
            · exact Or.inr (by
                simp only [List.map_cons, List.mem_cons]
                exact Or.inr (List.mem_map.mpr ⟨y, h', rfl⟩))
        · rw [if_neg h2] at hy
          rcases List.mem_cons.mp hy with h | h
          · subst h; exact Or.inr (by simp)
          · rcases ih h with h' | h'
            · exact Or.inl h'
            · exact Or.inr (by
                simp only [List.map_cons, List.mem_cons]
                exact Or.inr h')

theorem pmAdd_sortedK {mo : String} {ev : UsageEvent} :
    ∀ {m : List (String × ModelAccumulator)}, SortedK m → SortedK (pmAdd m mo ev) := by
  intro m
  induction m with
  | nil => intro _; simp [pmAdd, SortedK]
  | cons kv rest ih =>
      rcases kv with ⟨k, a⟩
      intro hs
      rcases List.pairwise_cons.mp hs with ⟨hhead, hrest⟩
      simp only [pmAdd]
      by_cases h1 : mo = k
      · rw [if_pos h1]
        exact List.pairwise_cons.mpr ⟨hhead, hrest⟩
      · rw [if_neg h1]
        by_cases h2 : mo < k
        · rw [if_pos h2]
          refine List.pairwise_cons.mpr ⟨?_, List.pairwise_cons.mpr ⟨hhead, hrest⟩⟩
          intro y hy
          rcases List.mem_cons.mp hy with h | h
          · subst h; exact h2
          · exact lt_trans h2 (hhead y h)
        · rw [if_neg h2]
          have hk : k < mo := lt_of_le_of_ne (not_lt.mp h2) (Ne.symm h1)
          refine List.pairwise_cons.mpr ⟨?_, ih hrest⟩
          intro y hy
          rcases pmAdd_mem_keys hy with h | h
          · rw [h]; exact hk
          · rcases List.mem_map.mp h with ⟨z, hz, hz1⟩
            rw [← hz1]
            exact hhead z hz

theorem pmFind_pmAdd {q mo : String} {ev : UsageEvent} :
    ∀ {m : List (String × ModelAccumulator)}, SortedK m →
      pmFind q (pmAdd m mo ev) =
        if q = mo then some (((pmFind q m).getD ModelAccumulator.zero).add ev)
        else pmFind q m := by
  intro m
  induction m with
  | nil =>
      intro _
      by_cases h : q = mo
      · simp [pmAdd, pmFind, h]
      · simp [pmAdd, pmFind, h, Ne.symm h]
  | cons kv rest ih =>
      rcases kv with ⟨k, a⟩
      intro hs
      rcases List.pairwise_cons.mp hs with ⟨hhead, hrest⟩
      simp only [pmAdd]
      by_cases h1 : mo = k
      · rw [if_pos h1]
        by_cases hq : q = mo
        · have hkq : k = q := by rw [hq, h1]
          simp [pmFind, hkq, hq, h1.symm.trans hq.symm]
        · have hkq : ¬ k = q := fun hh => hq (by rw [← hh, h1])
          simp [pmFind, hkq, hq]
      · rw [if_neg h1]
        by_cases h2 : mo < k
        · rw [if_pos h2]
          by_cases hq : q = mo
          · have hkm : ¬ k = mo := fun hh => by
              rw [hh] at h2
              exact lt_irrefl _ h2
            have hfr : pmFind mo rest = none := by
              refine pmFind_none_of_forall_ne (fun y hy hyq => ?_)
              have hky := hhead y hy
              rw [hyq] at hky
              exact lt_irrefl _ (lt_trans h2 hky)
            simp [pmFind, hq, hkm, hfr]
          · have hmnq : ¬ mo = q := fun hh => hq hh.symm
            simp [pmFind, hq, hmnq]
        · rw [if_neg h2]
          by_cases hkq : k = q
          · have hq : ¬ q = mo := fun hh => h1 (by rw [← hh, hkq])
            simp [pmFind, hkq, hq]
          · simp only [pmFind, if_neg hkq]
            exact ih hrest

theorem mbAdd_mem_keys {mb : ModelBreakdown} :
    ∀ {m : List (String × ModelAccumulator)} {y}, y ∈ mbAdd m mb →
      y.1 = mb.model ∨ y.1 ∈ m.map Prod.fst := by
  intro m
  induction m with
  | nil =>
      intro y hy
      simp only [mbAdd, List.mem_singleton] at hy
      subst hy
      exact Or.inl rfl
  | cons kv rest ih =>
      rcases kv with ⟨k, a⟩
      intro y hy
      simp only [mbAdd] at hy
      by_cases h1 : mb.model = k
      · rw [if_pos h1] at hy
        rcases List.mem_cons.mp hy with h | h
        · subst h; exact Or.inr (by simp)
        · exact Or.inr (by
            simp only [List.map_cons, List.mem_cons]
            exact Or.inr (List.mem_map.mpr ⟨y, h, rfl⟩))
      · rw [if_neg h1] at hy
        by_cases h2 : mb.model < k
        · rw [if_pos h2] at hy
          rcases List.mem_cons.mp hy with h | h
          · subst h; exact Or.inl rfl
          · rcases List.mem_cons.mp h with h' | h'
            · subst h'; exact Or.inr (by simp)
            · exact Or.inr (by
                simp only [List.map_cons, List.mem_cons]
                exact Or.inr (List.mem_map.mpr ⟨y, h', rfl⟩))
        · rw [if_neg h2] at hy
          rcases List.mem_cons.mp hy with h | h
          · subst h; exact Or.inr (by simp)
          · rcases ih h with h' | h'
            · exact Or.inl h'
            · exact Or.inr (by
                simp only [List.map_cons, List.mem_cons]
                exact Or.inr h')

theorem mbAdd_sortedK {mb : ModelBreakdown} :
    ∀ {m : List (String × ModelAccumulator)}, SortedK m → SortedK (mbAdd m mb) := by
  intro m
  induction m with
  | nil => intro _; simp [mbAdd, SortedK]
  | cons kv rest ih =>
      rcases kv with ⟨k, a⟩
      intro hs
      rcases List.pairwise_cons.mp hs with ⟨hhead, hrest⟩
      simp only [mbAdd]
      by_cases h1 : mb.model = k
      · rw [if_pos h1]
        exact List.pairwise_cons.mpr ⟨hhead, hrest⟩
      · rw [if_neg h1]
        by_cases h2 : mb.model < k
        · rw [if_pos h2]
          refine List.pairwise_cons.mpr ⟨?_, List.pairwise_cons.mpr ⟨hhead, hrest⟩⟩
          intro y hy
          rcases List.mem_cons.mp hy with h | h
          · subst h; exact h2
          · exact lt_trans h2 (hhead y h)
        · rw [if_neg h2]
          have hk : k < mb.model := lt_of_le_of_ne (not_lt.mp h2) (Ne.symm h1)
          refine List.pairwise_cons.mpr ⟨?_, ih hrest⟩
          intro y hy
          rcases mbAdd_mem_keys hy with h | h
          · rw [h]; exact hk
          · rcases List.mem_map.mp h with ⟨z, hz, hz1⟩
            rw [← hz1]
            exact hhead z hz

theorem pmFind_mbAdd {q : String} {mb : ModelBreakdown} :
    ∀ {m : List (String × ModelAccumulator)}, SortedK m →
      pmFind q (mbAdd m mb) =
        if q = mb.model then
          some (((pmFind q m).getD ModelAccumulator.zero).add_from_breakdown mb)
        else pmFind q m := by
  intro m
  induction m with
  | nil =>
      intro _
      by_cases h : q = mb.model
      · simp [mbAdd, pmFind, h]
      · simp [mbAdd, pmFind, h, Ne.symm h]
  | cons kv rest ih =>
      rcases kv with ⟨k, a⟩
      intro hs
      rcases List.pairwise_cons.mp hs with ⟨hhead, hrest⟩
      simp only [mbAdd]
      by_cases h1 : mb.model = k
      · rw [if_pos h1]
        by_cases hq : q = mb.model
        · have hkq : k = q := by rw [hq, h1]
          simp [pmFind, hkq, hq, h1.symm.trans hq.symm]
        · have hkq : ¬ k = q := fun hh => hq (by rw [← hh, h1])
          simp [pmFind, hkq, hq]
      · rw [if_neg h1]
        by_cases h2 : mb.model < k
        · rw [if_pos h2]
          by_cases hq : q = mb.model
          · have hkm : ¬ k = mb.model := fun hh => by
              rw [hh] at h2
              exact lt_irrefl _ h2
            have hfr : pmFind mb.model rest = none := by
              refine pmFind_none_of_forall_ne (fun y hy hyq => ?_)
              have hky := hhead y hy
              rw [hyq] at hky
              exact lt_irrefl _ (lt_trans h2 hky)
            simp [pmFind, hq, hkm, hfr]
          · have hmnq : ¬ mb.model = q := fun hh => hq hh.symm
            simp [pmFind, hq, hmnq]
        · rw [if_neg h2]
          by_cases hkq : k = q
          · have hq : ¬ q = mb.model := fun hh => h1 (by rw [← hh, hkq])
            simp [pmFind, hkq, hq]
          · simp only [pmFind, if_neg hkq]
            exact ih hrest

/-- Right fold of `plus` (proof-side). -/
def msum : List ModelAccumulator → ModelAccumulator
  | [] => ModelAccumulator.zero
  | a :: rest => a.plus (msum rest)

/-- The model-`q` accumulators contributed by each bucket of an
aggregation map (proof-side). -/
def bucketVals {K : Type} (q : String) (M : List (K × RowAccumulator)) :
    List ModelAccumulator :=
  M.filterMap (fun kv => pmFind q kv.2.per_model)

/-- Left fold combining the buckets' model-`q` accumulators (proof-side). -/
def bucketSumAt {K : Type} (q : String) (M : List (K × RowAccumulator)) :
    Option ModelAccumulator :=
  M.foldl
    (fun acc kv =>
      match pmFind q kv.2.per_model with
      | some a => some ((acc.getD ModelAccumulator.zero).plus a)
      | none => acc)
    none

/-- Every bucket's `per_model` map is sorted. -/
def WFBuckets {K : Type} (M : List (K × RowAccumulator)) : Prop :=
  ∀ kv ∈ M, SortedK kv.2.per_model

theorem ModelAccumulator.plus_add_right (x y : ModelAccumulator) (e : UsageEvent) :
    (x.plus y).add e = (x.add e).plus y := by
  cases x
  cases y
  simp only [ModelAccumulator.plus, ModelAccumulator.add, ModelAccumulator.mk.injEq]
  refine ⟨by omega, by omega, by omega, by omega, by ring⟩

theorem ModelAccumulator.zeroadd_plus (m : ModelAccumulator) (e : UsageEvent) :
    (ModelAccumulator.zero.add e).plus m = m.add e := by
  cases m
  simp only [ModelAccumulator.plus, ModelAccumulator.add, ModelAccumulator.zero,
    ModelAccumulator.mk.injEq]
  refine ⟨by omega, by omega, by omega, by omega, by ring⟩

theorem bucketSumAt_fold_some {K : Type} (q : String) :
    ∀ (M : List (K × RowAccumulator)) (x : ModelAccumulator),
      (M.foldl
        (fun acc kv =>
          match pmFind q kv.2.per_model with
          | some a => some ((acc.getD ModelAccumulator.zero).plus a)
          | none => acc)
        (some x)) = some (x.plus (msum (bucketVals q M))) := by
  intro M
  induction M with
  | nil => intro x; simp [bucketVals, msum, ModelAccumulator.plus_zero]
  | cons kv M ih =>
      intro x
      cases hf : pmFind q kv.2.per_model with
      | some a =>
          simp only [List.foldl_cons, hf, Option.getD_some, ih, bucketVals,
            List.filterMap_cons, msum]
          rw [ModelAccumulator.plus_assoc]
      | none =>
          simp only [List.foldl_cons, hf, ih, bucketVals, List.filterMap_cons]

theorem bucketSumAt_eq {K : Type} (q : String) (M : List (K × RowAccumulator)) :
    bucketSumAt q M =
      if (bucketVals q M).isEmpty then none else some (msum (bucketVals q M)) := by
  induction M with
  | nil => simp [bucketSumAt, bucketVals]
  | cons kv M ih =>
      cases hf : pmFind q kv.2.per_model with
      | some a =>
          simp only [bucketSumAt, List.foldl_cons, hf, Option.getD_none,
            bucketSumAt_fold_some, bucketVals, List.filterMap_cons, msum]
          rw [ModelAccumulator.zero_plus]
          simp [msum]
      | none =>
          simp only [bucketSumAt, List.foldl_cons, hf] at ih ⊢
          rw [show bucketVals q (kv :: M) = bucketVals q M by
            simp [bucketVals, List.filterMap_cons, hf]]
          exact ih

theorem add_event_per_model (a : RowAccumulator) (e : UsageEvent) :
    (a.add_event e).per_model =
      match e.model with
      | some mo => pmAdd a.per_model mo e
      | none => a.per_model := by
  rcases e with ⟨t, p, s, mo, i, o, c1, c2, c⟩
  cases mo <;> rfl

theorem add_event_sortedK {a : RowAccumulator} {e : UsageEvent}
    (h : SortedK a.per_model) : SortedK (a.add_event e).per_model := by
  rw [add_event_per_model]
  cases hm : e.model with
  | some mo => exact pmAdd_sortedK h
  | none => exact h

theorem bucketsAdd_WF {K : Type} [LinearOrder K] {disp : UsageEvent → String}
    {e : UsageEvent} :
    ∀ {M : List (K × RowAccumulator)} (k : K), WFBuckets M →
      WFBuckets (bucketsAdd disp M k e) := by
  intro M
  induction M with
  | nil =>
      intro k _
      intro kv hkv
      simp only [bucketsAdd, List.mem_singleton] at hkv
      subst hkv
      exact add_event_sortedK (by simp [RowAccumulator.new, SortedK])
  | cons kv0 M ih =>
      rcases kv0 with ⟨k0, a0⟩
      intro k hW
      have hW0 : SortedK a0.per_model := hW (k0, a0) (List.mem_cons_self _ _)
      have hWM : WFBuckets M := fun kv hkv => hW kv (List.mem_cons_of_mem _ hkv)
      simp only [bucketsAdd]
      by_cases h1 : k = k0
      · rw [if_pos h1]
        intro kv hkv
        rcases List.mem_cons.mp hkv with h | h
        · subst h; exact add_event_sortedK hW0
        · exact hWM kv h
      · rw [if_neg h1]
        by_cases h2 : k < k0
        · rw [if_pos h2]
          intro kv hkv
          rcases List.mem_cons.mp hkv with h | h
          · subst h; exact add_event_sortedK (by simp [RowAccumulator.new, SortedK])
          · rcases List.mem_cons.mp h with h' | h'
            · subst h'; exact hW0
            · exact hWM kv h'
        · rw [if_neg h2]
          intro kv hkv
          rcases List.mem_cons.mp hkv with h | h
          · subst h; exact hW0
          · exact ih k hWM kv h

theorem ModelAccumulator.plus_add_assoc (x y : ModelAccumulator) (e : UsageEvent) :
    x.plus (y.add e) = (x.plus y).add e := by
  cases x
  cases y
  simp only [ModelAccumulator.plus, ModelAccumulator.add, ModelAccumulator.mk.injEq]
  refine ⟨by omega, by omega, by omega, by omega, by ring⟩

theorem bucketVals_hit {K : Type} [LinearOrder K] (disp : UsageEvent → String)
    {q : String} {e : UsageEvent} (he : e.model = some q) :
    ∀ {M : List (K × RowAccumulator)} (k : K), WFBuckets M →
      msum (bucketVals q (bucketsAdd disp M k e)) = (msum (bucketVals q M)).add e ∧
        (bucketVals q (bucketsAdd disp M k e)).isEmpty = false := by
  intro M
  induction M with
  | nil =>
      intro k _
      have hpm : pmFind q (((RowAccumulator.new (disp e)).add_event e).per_model) =
          some (ModelAccumulator.zero.add e) := by
        rw [add_event_per_model, he]
        simp [RowAccumulator.new, pmAdd, pmFind]
      refine ⟨?_, ?_⟩
      · simp only [bucketsAdd, bucketVals, List.filterMap_cons, hpm, List.filterMap_nil, msum]
        rw [ModelAccumulator.plus_zero]
      · simp [bucketsAdd, bucketVals, List.filterMap_cons, hpm]
  | cons kv0 M ih =>
      rcases kv0 with ⟨k0, a0⟩
      intro k hW
      have hW0 : SortedK a0.per_model := hW (k0, a0) (List.mem_cons_self _ _)
      have hWM : WFBuckets M := fun kv hkv => hW kv (List.mem_cons_of_mem _ hkv)
      simp only [bucketsAdd]
      by_cases h1 : k = k0
      · rw [if_pos h1]
        have hpm : pmFind q ((a0.add_event e).per_model) =
            some (((pmFind q a0.per_model).getD ModelAccumulator.zero).add e) := by
          rw [add_event_per_model, he, pmFind_pmAdd hW0, if_pos rfl]
        cases hf : pmFind q a0.per_model with
        | some a =>
            refine ⟨?_, ?_⟩
            · simp only [bucketVals, List.filterMap_cons, hpm, hf, msum, Option.getD_some]
              rw [ModelAccumulator.plus_add_right]
            · simp [bucketVals, List.filterMap_cons, hpm]
        | none =>
            refine ⟨?_, ?_⟩
            · simp only [bucketVals, List.filterMap_cons, hpm, hf, msum, Option.getD_none]
              rw [ModelAccumulator.zeroadd_plus]
            · simp [bucketVals, List.filterMap_cons, hpm]
      · rw [if_neg h1]
        by_cases h2 : k < k0
        · rw [if_pos h2]
          have hpmnew : pmFind q (((RowAccumulator.new (disp e)).add_event e).per_model) =
              some (ModelAccumulator.zero.add e) := by
            rw [add_event_per_model, he]
            simp [RowAccumulator.new, pmAdd, pmFind]
          refine ⟨?_, ?_⟩
          · simp only [bucketVals, List.filterMap_cons, hpmnew, msum]
            rw [ModelAccumulator.zeroadd_plus]
          · simp [bucketVals, List.filterMap_cons, hpmnew]
        · rw [if_neg h2]
          have hih := ih k hWM
          cases hf : pmFind q a0.per_model with
          | some a =>
              refine ⟨?_, ?_⟩
              · simp only [bucketVals, List.filterMap_cons, hf, msum]
                rw [show bucketVals q (bucketsAdd disp M k e) =
                    List.filterMap (fun kv => pmFind q kv.2.per_model)
                      (bucketsAdd disp M k e) from rfl] at hih
                rw [hih.1, ModelAccumulator.plus_add_assoc]
                rfl
              · simp [bucketVals, List.filterMap_cons, hf]
          | none =>
              refine ⟨?_, ?_⟩
              · simp only [bucketVals, List.filterMap_cons, hf]
                exact hih.1
              · simp only [bucketVals, List.filterMap_cons, hf]
                exact hih.2

theorem bucketVals_miss {K : Type} [LinearOrder K] (disp : UsageEvent → String)
    {q : String} {e : UsageEvent} (he : e.model ≠ some q) :
    ∀ {M : List (K × RowAccumulator)} (k : K), WFBuckets M →
      bucketVals q (bucketsAdd disp M k e) = bucketVals q M := by
  intro M
  induction M with
  | nil =>
      intro k _
      have hpm : pmFind q (((RowAccumulator.new (disp e)).add_event e).per_model) = none := by
        rw [add_event_per_model]
        cases hm : e.model with
        | some mo =>
            have hne : ¬ mo = q := fun hh => he (by rw [hm, hh])
            simp [RowAccumulator.new, pmAdd, pmFind, hne]
        | none => simp [RowAccumulator.new, pmFind]
      simp [bucketsAdd, bucketVals, List.filterMap_cons, hpm]
  | cons kv0 M ih =>
      rcases kv0 with ⟨k0, a0⟩
      intro k hW
      have hW0 : SortedK a0.per_model := hW (k0, a0) (List.mem_cons_self _ _)
      have hWM : WFBuckets M := fun kv hkv => hW kv (List.mem_cons_of_mem _ hkv)
      simp only [bucketsAdd]
      by_cases h1 : k = k0
      · rw [if_pos h1]
        have hpm : pmFind q ((a0.add_event e).per_model) = pmFind q a0.per_model := by
          rw [add_event_per_model]
          cases hm : e.model with
          | some mo =>
              have hne : ¬ q = mo := fun hh => he (by rw [hm, hh])
              rw [pmFind_pmAdd hW0, if_neg hne]
          | none => rfl
        simp [bucketVals, List.filterMap_cons, hpm]
      · rw [if_neg h1]
        by_cases h2 : k < k0
        · rw [if_pos h2]
          have hpmnew : pmFind q (((RowAccumulator.new (disp e)).add_event e).per_model) =
              none := by
            rw [add_event_per_model]
            cases hm : e.model with
            | some mo =>
                have hne : ¬ mo = q := fun hh => he (by rw [hm, hh])
                simp [RowAccumulator.new, pmAdd, pmFind, hne]
            | none => simp [RowAccumulator.new, pmFind]
          simp [bucketVals, List.filterMap_cons, hpmnew]
        · rw [if_neg h2]
          simp only [bucketVals, List.filterMap_cons]
          rw [show List.filterMap (fun kv => pmFind q kv.2.per_model)
              (bucketsAdd disp M k e) = bucketVals q (bucketsAdd disp M k e) from rfl,
            ih k hWM]
          rfl

theorem bucketVals_aggregate_char {K : Type} [LinearOrder K] (keyf : UsageEvent → K)
    (disp : UsageEvent → String) (φ : UsageEvent → Bool) (q : String) :
    ∀ (es : List UsageEvent) (M : List (K × RowAccumulator)), WFBuckets M →
      msum (bucketVals q (es.foldl
          (fun m ev => if φ ev then bucketsAdd disp m (keyf ev) ev else m) M)) =
        (msum (bucketVals q M)).plus
          (msum (((es.filter φ).filter (fun e => e.model == some q)).map
            (fun e => ModelAccumulator.zero.add e))) ∧
      (bucketVals q (es.foldl
          (fun m ev => if φ ev then bucketsAdd disp m (keyf ev) ev else m) M)).isEmpty =
        ((bucketVals q M).isEmpty &&
          ((es.filter φ).filter (fun e => e.model == some q)).isEmpty) := by
  intro es
  induction es with
  | nil =>
      intro M _
      simp [msum, ModelAccumulator.plus_zero]
  | cons e es ih =>
      intro M hW
      by_cases hφ : φ e = true
      · have hWF1 : WFBuckets (bucketsAdd disp M (keyf e) e) := bucketsAdd_WF _ hW
        have hih := ih (bucketsAdd disp M (keyf e) e) hWF1
        by_cases hq : e.model = some q
        · have hqb : (e.model == some q) = true := by simp [hq]
          have hhit := bucketVals_hit disp hq (keyf e) hW
          simp only [List.foldl_cons, if_pos hφ, List.filter_cons, hφ, if_true, hqb,
            List.map_cons, msum]
          refine ⟨?_, ?_⟩
          · rw [hih.1, hhit.1, ← ModelAccumulator.plus_assoc,
              ← ModelAccumulator.add_eq_plus]
          · rw [hih.2, hhit.2]
            simp
        · have hqb : (e.model == some q) = false := by
            simpa using hq
          have hmiss := bucketVals_miss disp hq (keyf e) hW
          simp only [List.foldl_cons, if_pos hφ, List.filter_cons, hφ, if_true, hqb]
          refine ⟨?_, ?_⟩
          · rw [hih.1, hmiss]
            simp
          · rw [hih.2, hmiss]
            simp
      · have hφf : φ e = false := by simpa using hφ
        have hih := ih M hW
        simp only [List.foldl_cons, hφf, Bool.false_eq_true, if_false, List.filter_cons]
        simpa [hφf] using hih

theorem aggregateRows_WF {K : Type} [LinearOrder K] (keyf : UsageEvent → K)
    (disp : UsageEvent → String) (φ : UsageEvent → Bool) (es : List UsageEvent) :
    WFBuckets (aggregateRows keyf disp φ es) := by
  suffices hgen : ∀ M : List (K × RowAccumulator), WFBuckets M →
      WFBuckets (es.foldl
        (fun m ev => if φ ev then bucketsAdd disp m (keyf ev) ev else m) M) by
    exact hgen [] (fun kv hkv => absurd hkv (List.not_mem_nil _))
  induction es with
  | nil => intro M h; exact h
  | cons e es ih =>
      intro M h
      simp only [List.foldl_cons]
      by_cases hφ : φ e = true
      · rw [if_pos hφ]
        exact ih _ (bucketsAdd_WF _ h)
      · rw [if_neg hφ]
        exact ih _ h

theorem pmFind_aggregate_fold_char (q : String) :
    ∀ (evs : List UsageEvent) (m : List (String × ModelAccumulator)), SortedK m →
      SortedK (evs.foldl
          (fun m ev => match ev.model with | some mo => pmAdd m mo ev | none => m) m) ∧
      pmFind q (evs.foldl
          (fun m ev => match ev.model with | some mo => pmAdd m mo ev | none => m) m) =
        (if (evs.filter (fun e => e.model == some q)).isEmpty then pmFind q m
         else some (((pmFind q m).getD ModelAccumulator.zero).plus
            (msum ((evs.filter (fun e => e.model == some q)).map
              (fun e => ModelAccumulator.zero.add e))))) := by
  intro evs
  induction evs with
  | nil =>
      intro m hm
      exact ⟨hm, by simp⟩
  | cons e evs ih =>
      intro m hm
      cases hmod : e.model with
      | none =>
          have hqb : (e.model == some q) = false := by simp [hmod]
          have hih := ih m hm
          simp only [List.foldl_cons, hmod, List.filter_cons, hqb]
          exact hih
      | some mo =>
          have hms : SortedK (pmAdd m mo e) := pmAdd_sortedK hm
          have hih := ih (pmAdd m mo e) hms
          by_cases hq : mo = q
          · have hpm : pmFind q (pmAdd m mo e) =
                some (((pmFind q m).getD ModelAccumulator.zero).add e) := by
              rw [pmFind_pmAdd hm, if_pos hq.symm]
            refine ⟨by simpa only [List.foldl_cons, hmod] using hih.1, ?_⟩
            have hx := hih.2
            rw [hpm] at hx
            by_cases hse : (evs.filter (fun x => x.model == some q)).isEmpty = true
            · have hni : evs.filter (fun x => x.model == some q) = [] := by
                simpa [List.isEmpty_iff] using hse
              rw [if_pos hse] at hx
              simp only [List.foldl_cons, hmod]
              rw [hx]
              simp only [List.filter_cons, hmod, hq, hni, msum, List.map_cons,
                List.map_nil, List.isEmpty_cons, beq_self_eq_true, if_true,
                Bool.false_eq_true, if_false, ModelAccumulator.plus_zero]
              rw [ModelAccumulator.add_eq_plus]
            · rw [if_neg hse] at hx
              simp only [List.foldl_cons, hmod]
              rw [hx]
              simp only [Option.getD_some] at *
              simp [List.filter_cons, hmod, hq, msum, ← ModelAccumulator.plus_assoc,
                ← ModelAccumulator.add_eq_plus]
          · have hqb : ((some mo == some q) : Bool) = false := by simp [hq]
            have hpm : pmFind q (pmAdd m mo e) = pmFind q m := by
              rw [pmFind_pmAdd hm, if_neg (fun hh => hq hh.symm)]
            refine ⟨by simpa only [List.foldl_cons, hmod] using hih.1, ?_⟩
            have hx := hih.2
            rw [hpm] at hx
            simp only [List.foldl_cons, hmod]
            rw [hx]
            simp [List.filter_cons, hmod, hqb]

theorem findBr_map_finish (q : String) :
    ∀ m : List (String × ModelAccumulator),
      findBr q (m.map (fun kv => kv.2.finish kv.1)) =
        (pmFind q m).map (fun a => a.finish q) := by
  intro m
  induction m with
  | nil => rfl
  | cons kv rest ih =>
      rcases kv with ⟨k, a⟩
      by_cases hk : k = q
      · simp only [findBr, List.map_cons, List.find?_cons, ModelAccumulator.finish, hk,
          pmFind, if_pos rfl]
        simp
      · have hkb : (k == q) = false := by simpa using hk
        simp only [findBr, List.map_cons, List.find?_cons, ModelAccumulator.finish, hkb,
          pmFind, if_neg hk]
        exact ih

theorem brFold_no_hit (q : String) :
    ∀ (l : List ModelBreakdown) (acc : Option ModelAccumulator),
      (∀ mb ∈ l, mb.model ≠ q) →
      l.foldl
        (fun acc mb =>
          if mb.model == q then
            some ((acc.getD ModelAccumulator.zero).add_from_breakdown mb)
          else acc)
        acc = acc := by
  intro l
  induction l with
  | nil => intro acc _; rfl
  | cons mb l ih =>
      intro acc h
      have hb : (mb.model == q) = false := by
        simpa using h mb (List.mem_cons_self _ _)
      simp only [List.foldl_cons, hb, Bool.false_eq_true, if_false]
      exact ih acc (fun x hx => h x (List.mem_cons_of_mem _ hx))

theorem brFold_finished (q : String) :
    ∀ (pm : List (String × ModelAccumulator)) (acc : Option ModelAccumulator),
      SortedK pm →
      ((pm.map (fun kv => kv.2.finish kv.1)).foldl
        (fun acc mb =>
          if mb.model == q then
            some ((acc.getD ModelAccumulator.zero).add_from_breakdown mb)
          else acc)
        acc) =
        match pmFind q pm with
        | some a => some ((acc.getD ModelAccumulator.zero).plus a)
        | none => acc := by
  intro pm
  induction pm with
  | nil => intro acc _; rfl
  | cons kv rest ih =>
      rcases kv with ⟨k, b⟩
      intro acc hs
      rcases List.pairwise_cons.mp hs with ⟨hhead, hrest⟩
      by_cases hk : k = q
      · have hb : ((b.finish k).model == q) = true := by
          simp [ModelAccumulator.finish, hk]
        simp only [List.map_cons, List.foldl_cons, hb, if_true]
        have hnone : ∀ mb ∈ rest.map (fun kv => kv.2.finish kv.1), mb.model ≠ q := by
          intro mb hmb
          rcases List.mem_map.mp hmb with ⟨z, hz, hz1⟩
          rw [← hz1]
          simp only [ModelAccumulator.finish]
          have := hhead z hz
          rw [hk] at this
          exact fun hh => lt_irrefl q (hh ▸ this)
        rw [brFold_no_hit q _ _ hnone]
        simp only [pmFind, if_pos hk]
        rw [show b.finish k = b.finish q from by rw [hk]]
        rw [ModelAccumulator.addB_finish]
      · have hb : ((b.finish k).model == q) = false := by
          simpa [ModelAccumulator.finish] using hk
        simp only [List.map_cons, List.foldl_cons, hb, Bool.false_eq_true, if_false,
          pmFind, if_neg hk]
        exact ih acc hrest

theorem mbFold_sortedK :
    ∀ (l : List ModelBreakdown) (m : List (String × ModelAccumulator)),
      SortedK m → SortedK (l.foldl mbAdd m) := by
  intro l
  induction l with
  | nil => intro m hm; exact hm
  | cons mb l ih =>
      intro m hm
      simp only [List.foldl_cons]
      exact ih _ (mbAdd_sortedK hm)

theorem pmFind_mbFold (q : String) :
    ∀ (l : List ModelBreakdown) (m : List (String × ModelAccumulator)), SortedK m →
      pmFind q (l.foldl mbAdd m) =
        l.foldl
          (fun acc mb =>
            if mb.model == q then
              some ((acc.getD ModelAccumulator.zero).add_from_breakdown mb)
            else acc)
          (pmFind q m) := by
  intro l
  induction l with
  | nil => intro m _; rfl
  | cons mb l ih =>
      intro m hm
      simp only [List.foldl_cons]
      rw [ih _ (mbAdd_sortedK hm), pmFind_mbAdd hm]
      by_cases hq : q = mb.model
      · have hb : (mb.model == q) = true := by simp [hq.symm]
        rw [if_pos hq, hb]
        simp
      · have hb : (mb.model == q) = false := by
          simpa using fun hh => hq hh.symm
        rw [if_neg hq, hb]
        simp

theorem pmFind_combine_buckets {K : Type} [LinearOrder K] (q : String) :
    ∀ (M : List (K × RowAccumulator)) (m : List (String × ModelAccumulator)),
      SortedK m → WFBuckets M →
      SortedK ((M.map (fun kv => kv.2.finish)).foldl
          (fun m row => row.model_breakdowns.foldl mbAdd m) m) ∧
      pmFind q ((M.map (fun kv => kv.2.finish)).foldl
          (fun m row => row.model_breakdowns.foldl mbAdd m) m) =
        M.foldl
          (fun acc kv =>
            match pmFind q kv.2.per_model with
            | some a => some ((acc.getD ModelAccumulator.zero).plus a)
            | none => acc)
          (pmFind q m) := by
  intro M
  induction M with
  | nil => intro m hm _; exact ⟨hm, rfl⟩
  | cons kv M ih =>
      intro m hm hW
      have hW0 : SortedK kv.2.per_model := hW kv (List.mem_cons_self _ _)
      have hWM : WFBuckets M := fun x hx => hW x (List.mem_cons_of_mem _ hx)
      have hbd : (kv.2.finish).model_breakdowns =
          kv.2.per_model.map (fun x => x.2.finish x.1) := rfl
      have hm1 : SortedK ((kv.2.finish).model_breakdowns.foldl mbAdd m) :=
        mbFold_sortedK _ _ hm
      have hfind1 : pmFind q ((kv.2.finish).model_breakdowns.foldl mbAdd m) =
          match pmFind q kv.2.per_model with
          | some a => some (((pmFind q m).getD ModelAccumulator.zero).plus a)
          | none => pmFind q m := by
        rw [hbd, pmFind_mbFold q _ _ hm, brFold_finished q _ _ hW0]
      have hih := ih ((kv.2.finish).model_breakdowns.foldl mbAdd m) hm1 hWM
      refine ⟨by simpa only [List.map_cons, List.foldl_cons] using hih.1, ?_⟩
      simp only [List.map_cons, List.foldl_cons]
      rw [hih.2, hfind1]

/-- C8: folding every row's per-model breakdown into one model-keyed map
(`aggregate_models_from_rows`) gives, for every model, exactly the token
sums and cost sum produced by aggregating the same filtered events with
model identity as the only grouping key. -/
theorem aggregate_models_equiv {K : Type} [LinearOrder K]
    (keyf : UsageEvent → K) (disp : UsageEvent → String) (φ : UsageEvent → Bool)
    (events : List UsageEvent) (q : String) :
    findBr q (aggregate_models_from_rows
        ((aggregateRows keyf disp φ events).map (fun kv => kv.2.finish))) =
      (pmFind q (aggregate_by_model (events.filter φ))).map
        (fun a => a.finish q) := by
  have hWF := aggregateRows_WF keyf disp φ events
  have hmnil : SortedK ([] : List (String × ModelAccumulator)) := List.Pairwise.nil
  unfold aggregate_models_from_rows
  rw [findBr_map_finish]
  have hcomb :=
    (pmFind_combine_buckets q (aggregateRows keyf disp φ events) [] hmnil hWF).2
  rw [hcomb]
  have hbs : (aggregateRows keyf disp φ events).foldl
      (fun acc kv =>
        match pmFind q kv.2.per_model with
        | some a => some ((acc.getD ModelAccumulator.zero).plus a)
        | none => acc)
      (pmFind q ([] : List (String × ModelAccumulator))) =
      bucketSumAt q (aggregateRows keyf disp φ events) := rfl
  rw [hbs, bucketSumAt_eq]
  have hWnil : WFBuckets ([] : List (K × RowAccumulator)) :=
    fun x hx => absurd hx (List.not_mem_nil _)
  have hagg := bucketVals_aggregate_char keyf disp φ q events [] hWnil
  have haggv : msum (bucketVals q (aggregateRows keyf disp φ events)) =
      msum (((events.filter φ).filter (fun e => e.model == some q)).map
        (fun e => ModelAccumulator.zero.add e)) := by
    have h1 := hagg.1
    rw [show bucketVals q ([] : List (K × RowAccumulator)) = [] from rfl] at h1
    rw [show aggregateRows keyf disp φ events =
      events.foldl (fun m ev => if φ ev then bucketsAdd disp m (keyf ev) ev else m) []
      from rfl]
    rw [h1, show msum [] = ModelAccumulator.zero from rfl, ModelAccumulator.zero_plus]
  have hagge : (bucketVals q (aggregateRows keyf disp φ events)).isEmpty =
      ((events.filter φ).filter (fun e => e.model == some q)).isEmpty := by
    have h2 := hagg.2
    rw [show bucketVals q ([] : List (K × RowAccumulator)) = [] from rfl] at h2
    rw [show aggregateRows keyf disp φ events =
      events.foldl (fun m ev => if φ ev then bucketsAdd disp m (keyf ev) ev else m) []
      from rfl]
    simpa using h2
  have hrhs := (pmFind_aggregate_fold_char q (events.filter φ) [] hmnil).2
  rw [show aggregate_by_model (events.filter φ) =
    (events.filter φ).foldl
      (fun m ev => match ev.model with | some mo => pmAdd m mo ev | none => m) []
    from rfl]
  rw [hrhs, hagge, haggv]
  by_cases hse : ((events.filter φ).filter (fun e => e.model == some q)).isEmpty = true
  · rw [if_pos hse, if_pos hse]
    rfl
  · rw [if_neg hse, if_neg hse]
    rw [show pmFind q ([] : List (String × ModelAccumulator)) = none from rfl]
    simp [ModelAccumulator.zero_plus]

end Ccusage
